import Mathlib

/-!
# A shallow embedding of `ds::table<T>` (src/table.hpp)

The C++ class `ds::table<T>` is a sparse two-dimensional container built
from three arrays:

* `cells : std::vector<T>` — the dense value store;
* `cells_indices : std::vector<int>` — for each dense slot, the flattened
  cell-id that owns it (the back-index array);
* `table_indices : std::vector<int>` — the lookup array of length
  `rows * cols`, mapping each flattened cell-id to a dense index or to the
  sentinel `none = -INT_MAX`.

Machine integers are modelled as `Int`/`Nat` with the exact conversions the
C++ code performs made explicit:

* `int` ↔ `unsigned int` conversions reduce modulo `2^32` (`toUInt32n`,
  `toInt32`);
* `std::vector::at(i)` with an `int` argument converts `i` to `size_t`;
  since all vector lengths here are below `2^63`, the call succeeds exactly
  when `0 ≤ i < length` and otherwise throws `std::out_of_range`.  This is
  `vecAt`, returning `Option`.

Exceptional outcomes are modelled with `Err`.  The spec distinguishes two
conditions, both of which surface as `std::out_of_range` in C++:
`outOfRange` (a lookup-array or defensive internal bounds failure) and
`notFound` (`at` indexing the dense store with the `none` sentinel because
the requested cell is unpopulated).

`erase` reaches code with genuinely undefined behaviour (raw pointer
arithmetic `container.data() + container_index` on an out-of-bounds index
in `swap_and_erase`); the embedding marks those executions `MRes.ub`.
Mutating operations return `MRes`: `ok` with the new state, `err` with the
error condition and the state at the moment of the throw, or `ub`.
-/

namespace ds

/-- `using index = int`. -/
abbrev index := Int

/-- `using dim_t = unsigned int`; values are the represented naturals. -/
abbrev dim_t := Nat

/-- The sentinel `none = -INT_MAX` marking an empty cell in the lookup array. -/
def none : index := -2147483647

/-- Conversion of a mathematical integer to `unsigned int` (reduce mod `2^32`). -/
def toUInt32n (x : Int) : Nat := (x % 4294967296).toNat

/-- Conversion of a mathematical integer to `int`: reduce mod `2^32`, then
take the representative in `[-2^31, 2^31)`. -/
def toInt32 (x : Int) : Int :=
  if x % 4294967296 < 2147483648 then x % 4294967296 else x % 4294967296 - 4294967296

/-- `std::vector::at` with an `int` index: the index is converted to
`size_t`, so the access succeeds iff `0 ≤ i < length` (a negative `i`
becomes a huge unsigned value). `Option.none` models the thrown
`std::out_of_range`. -/
def vecAt (xs : List α) (i : Int) : Option α :=
  if 0 ≤ i then xs[i.toNat]? else Option.none

/-- Assignment through a reference obtained from a successful
`std::vector::at` call (only used after `vecAt` has succeeded). -/
def vecSet (xs : List α) (i : Int) (v : α) : List α := xs.set i.toNat v

/-- `swap_and_erase(container, i)` (the private template on one vector):
swap element `i` with the last element, then `pop_back`.  Callers guard
`0 ≤ i < length`; outside that range the C++ is undefined behaviour and
this function is never invoked by the embedding. -/
def swap_and_erase_vec (xs : List α) (i : Nat) : List α :=
  match xs.getLast? with
  | Option.none => []
  | some last => (xs.set i last).dropLast

/-- The state of a `ds::table<T>`. -/
structure table (α : Type) where
  rows : dim_t
  cols : dim_t
  cells : List α
  cells_indices : List index
  table_indices : List index
  deriving DecidableEq, Repr

/-- The error taxonomy: both conditions are `std::out_of_range` in C++;
they are distinguished by their cause (see the file header). -/
inductive Err where
  | outOfRange
  | notFound
  deriving DecidableEq, Repr

deriving instance DecidableEq for Except

/-- Result of a mutating operation: the new state, an error together with
the state at the moment of the throw, or undefined behaviour. -/
inductive MRes (α : Type) where
  | ok (t : table α)
  | err (e : Err) (s : table α)
  | ub
  deriving DecidableEq, Repr

namespace table

/-- `default_size = 4`. -/
def default_size : dim_t := 4

/-- The two-argument constructor: `table_indices.assign(rows * cols, none)`
(the product is computed in `unsigned int` arithmetic). -/
def mk_table (number_of_rows number_of_cols : dim_t) : table α :=
  { rows := number_of_rows
    cols := number_of_cols
    cells := []
    cells_indices := []
    table_indices := List.replicate ((number_of_rows * number_of_cols) % 4294967296) ds.none }

/-- The default constructor: `table()` with `default_size` rows and columns. -/
def mk_default : table α := mk_table default_size default_size

/-- `count() = cells.size()`. -/
def count (t : table α) : Nat := t.cells.length

/-- `get_table_index(row, column) = row * cols + column`; `cols` is
`unsigned int` so the arithmetic happens mod `2^32` and the result is
converted back to `int`. -/
def get_table_index (t : table α) (row column : index) : index :=
  toInt32 (row * (t.cols : Int) + column)

/-- `contains(row, column)`: reads `table_indices.at(t)` and compares with
`none`.  (The C++ method is declared `noexcept`, so an out-of-range
flattened index actually calls `std::terminate`; the condition detected is
still the lookup-array bounds failure, modelled `outOfRange`.) -/
def contains (t : table α) (row column : index) : Except Err Bool :=
  match vecAt t.table_indices (t.get_table_index row column) with
  | Option.none => .error .outOfRange
  | some i => .ok (decide (i ≠ ds.none))

/-- `at(row, column)`: `cells.at(table_indices.at(t))`.  When the cell is
unpopulated the inner access indexes `cells` with the sentinel `none`,
which always fails; per the spec taxonomy that condition is `notFound`,
while any other inner failure is a defensive `outOfRange`. -/
def at_ (t : table α) (row column : index) : Except Err α :=
  match vecAt t.table_indices (t.get_table_index row column) with
  | Option.none => .error .outOfRange
  | some i =>
    match vecAt t.cells i with
    | some v => .ok v
    | Option.none => if i = ds.none then .error .notFound else .error .outOfRange

/-- `at_else(row, column, otherwise)`: like `at` but returns the fallback
when the lookup entry is `none`. -/
def at_else (t : table α) (row column : index) (otherwise : α) : Except Err α :=
  match vecAt t.table_indices (t.get_table_index row column) with
  | Option.none => .error .outOfRange
  | some i =>
    if i = ds.none then .ok otherwise
    else
      match vecAt t.cells i with
      | some v => .ok v
      | Option.none => .error .outOfRange

/-- `get(row, column)`: `some v` models a pointer to the stored value,
`Option.none` models `nullptr`. -/
def get (t : table α) (row column : index) : Except Err (Option α) :=
  match vecAt t.table_indices (t.get_table_index row column) with
  | Option.none => .error .outOfRange
  | some i =>
    if i = ds.none then .ok Option.none
    else
      match vecAt t.cells i with
      | some v => .ok (some v)
      | Option.none => .error .outOfRange

/-- `set(row, column, element)`.  `n = static_cast<int>(cells.size())`;
if the cell is populated, `modify` assigns through `cells.at`; otherwise
the element and its cell-id are appended and the lookup entry set to `n`. -/
def set (t : table α) (row column : index) (element : α) : MRes α :=
  match vecAt t.table_indices (t.get_table_index row column) with
  | Option.none => .err .outOfRange t
  | some i =>
    if i ≠ ds.none then
      match vecAt t.cells i with
      | Option.none => .err .outOfRange t
      | some _ => .ok { t with cells := vecSet t.cells i element }
    else
      .ok { t with
            cells := t.cells ++ [element]
            cells_indices := t.cells_indices ++ [t.get_table_index row column]
            table_indices := vecSet t.table_indices (t.get_table_index row column)
              (toInt32 (Int.ofNat t.cells.length)) }

/-- `emplace(row, column, parameters...)`, modelled at the value level (the
constructed value is the argument): identical control flow to `set`. -/
def emplace (t : table α) (row column : index) (element : α) : MRes α :=
  match vecAt t.table_indices (t.get_table_index row column) with
  | Option.none => .err .outOfRange t
  | some i =>
    if i ≠ ds.none then
      match vecAt t.cells i with
      | Option.none => .err .outOfRange t
      | some _ => .ok { t with cells := vecSet t.cells i element }
    else
      .ok { t with
            cells := t.cells ++ [element]
            cells_indices := t.cells_indices ++ [t.get_table_index row column]
            table_indices := vecSet t.table_indices (t.get_table_index row column)
              (toInt32 (Int.ofNat t.cells.length)) }

/-- `erase(row, column)`.  `cells_index = table_indices.at(table_index)` is
a checked read; `swap_and_erase(cells_index)` then performs unchecked raw
accesses on `cells_indices` and `cells` (undefined behaviour unless
`0 ≤ cells_index < length` for both), computes the table index `updatable`
of the element moved into the vacated slot (`none` if the erased slot was
last), after which `table_indices.at(table_index) = none` and, when
`updatable != none`, `table_indices.at(updatable) = cells_index` — the two
final checked accesses happen after the containers have been mutated. -/
def erase (t : table α) (row column : index) : MRes α :=
  match vecAt t.table_indices (t.get_table_index row column) with
  | Option.none => .err .outOfRange t
  | some cells_index =>
    if 0 ≤ cells_index ∧ cells_index.toNat < t.cells_indices.length ∧
        cells_index.toNat < t.cells.length then
      if cells_index.toNat = (swap_and_erase_vec t.cells cells_index.toNat).length then
        .ok { t with
              cells := swap_and_erase_vec t.cells cells_index.toNat
              cells_indices := swap_and_erase_vec t.cells_indices cells_index.toNat
              table_indices := vecSet t.table_indices (t.get_table_index row column) ds.none }
      else
        match vecAt (swap_and_erase_vec t.cells_indices cells_index.toNat) cells_index with
        | Option.none =>
          .err .outOfRange
            { t with
              cells := swap_and_erase_vec t.cells cells_index.toNat
              cells_indices := swap_and_erase_vec t.cells_indices cells_index.toNat }
        | some updatable =>
          if updatable ≠ ds.none then
            match vecAt (vecSet t.table_indices (t.get_table_index row column) ds.none)
                updatable with
            | Option.none =>
              .err .outOfRange
                { t with
                  cells := swap_and_erase_vec t.cells cells_index.toNat
                  cells_indices := swap_and_erase_vec t.cells_indices cells_index.toNat
                  table_indices := vecSet t.table_indices (t.get_table_index row column) ds.none }
            | some _ =>
              .ok { t with
                    cells := swap_and_erase_vec t.cells cells_index.toNat
                    cells_indices := swap_and_erase_vec t.cells_indices cells_index.toNat
                    table_indices := vecSet
                      (vecSet t.table_indices (t.get_table_index row column) ds.none)
                      updatable cells_index }
          else
            .ok { t with
                  cells := swap_and_erase_vec t.cells cells_index.toNat
                  cells_indices := swap_and_erase_vec t.cells_indices cells_index.toNat
                  table_indices := vecSet t.table_indices (t.get_table_index row column) ds.none }
    else .ub

/-- The loop body of `set_size`: for each dense position `i`, read the
cell-id (always in range, by the loop bound) and `cells.at(i)` (a checked
read that throws in a corrupted state), recover `(row, col)` with unsigned
division and modulo by the old column count, and reinsert into the fresh
table when both coordinates fit.  `*this` is only replaced at the very
end, so an error propagating from the loop leaves the original state.
The loop never modifies `cells_indices`, so its bound is fixed; `fuel`
counts the remaining iterations (`set_size` passes the full length, so
`fuel = 0` coincides with `i ≥ length` and the `ub` arm is unreachable).
A `cols = 0` division inside the loop body would be C++ undefined
behaviour; it is marked `ub` (unreachable from well-formed states, whose
loop is then empty). -/
def set_size_step (t : table α) (number_of_rows number_of_cols : dim_t) (i : Nat)
    (h : i < t.cells_indices.length) (acc : table α) : MRes α :=
  match vecAt t.cells (Int.ofNat i) with
  | Option.none => .err .outOfRange t
  | some datum =>
    if t.cols = 0 then .ub
    else
      if toUInt32n (t.cells_indices.get ⟨i, h⟩) / t.cols < number_of_rows ∧
          toUInt32n (t.cells_indices.get ⟨i, h⟩) % t.cols < number_of_cols then
        match acc.set
            (toInt32 (Int.ofNat (toUInt32n (t.cells_indices.get ⟨i, h⟩) / t.cols)))
            (toInt32 (Int.ofNat (toUInt32n (t.cells_indices.get ⟨i, h⟩) % t.cols)))
            datum with
        | .ok acc2 => .ok acc2
        | .err e _ => .err e t
        | .ub => .ub
      else .ok acc

def set_size_go (t : table α) (number_of_rows number_of_cols : dim_t) :
    Nat → Nat → table α → MRes α
  | i, 0, acc => if i < t.cells_indices.length then .ub else .ok acc
  | i, fuel + 1, acc =>
    if h : i < t.cells_indices.length then
      match set_size_step t number_of_rows number_of_cols i h acc with
      | .ok acc2 => set_size_go t number_of_rows number_of_cols (i + 1) fuel acc2
      | .err e s => .err e s
      | .ub => .ub
    else .ok acc

/-- `set_size(number_of_rows, number_of_columns)`: build a fresh table of
the new dimensions, reinsert every surviving element, then replace the
state with the freshly built table. -/
def set_size (t : table α) (number_of_rows number_of_cols : dim_t) : MRes α :=
  set_size_go t number_of_rows number_of_cols 0 t.cells_indices.length
    (mk_table number_of_rows number_of_cols)

end table

/-- The observable content of the cell with flattened id `c`: the stored
value when the lookup entry is a valid dense index, nothing otherwise. -/
def cellVal (t : table α) (c : Nat) : Option α :=
  match t.table_indices[c]? with
  | some (Int.ofNat j) => t.cells[j]?
  | _ => Option.none

/-- The structural well-formedness invariant of a table state (§3 of the
spec): the lookup array has length `rows * cols` (kept below `2^31` so that
index arithmetic never wraps), the dense store and the back-index array
run in lockstep, every back-index entry is a valid flattened cell-id, every
lookup entry is `none` or a valid dense index, and the lookup and
back-index arrays are inverse to one another. -/
structure Inv (t : table α) : Prop where
  len_ti : t.table_indices.length = t.rows * t.cols
  small : t.rows * t.cols < 2147483648
  len_eq : t.cells.length = t.cells_indices.length
  back_lt : ∀ j : Nat, j < t.cells_indices.length →
    ∃ c : Nat, t.cells_indices[j]? = some ((c : Int)) ∧ c < t.rows * t.cols
  lookup_shape : ∀ c : Nat, c < t.rows * t.cols →
    t.table_indices[c]? = some ds.none ∨
      ∃ j : Nat, j < t.cells.length ∧ t.table_indices[c]? = some ((j : Int))
  link : ∀ c j : Nat, c < t.rows * t.cols → j < t.cells.length →
    (t.table_indices[c]? = some ((j : Int)) ↔ t.cells_indices[j]? = some ((c : Int)))

/-- States reachable from a freshly constructed table by successful
operations. -/
inductive Reachable {α : Type} : table α → Prop where
  | fresh : ∀ rows cols : Nat, rows * cols < 2147483648 →
      Reachable (table.mk_table rows cols)
  | set_step : ∀ (t t' : table α) (row col : index) (v : α),
      Reachable t → t.set row col v = .ok t' → Reachable t'
  | emplace_step : ∀ (t t' : table α) (row col : index) (v : α),
      Reachable t → t.emplace row col v = .ok t' → Reachable t'
  | erase_step : ∀ (t t' : table α) (row col : index),
      Reachable t → t.erase row col = .ok t' → Reachable t'
  | set_size_step : ∀ (t t' : table α) (r c : dim_t),
      Reachable t → r * c < 2147483648 → t.set_size r c = .ok t' → Reachable t'

/-- The flattened index computed by `get_table_index` falls outside the
lookup array, so that `table_indices.at` fails. -/
def flat_oob (t : table α) (row col : index) : Prop :=
  ¬ (0 ≤ t.get_table_index row col ∧
      (t.get_table_index row col).toNat < t.table_indices.length)

instance (t : table α) (row col : index) : Decidable (flat_oob t row col) := by
  unfold flat_oob; infer_instance

/-- A small concrete table used to instantiate theorems: the result of
`set(0, 0, 10)` on a fresh 2×2 table. -/
def wtab1 : table Int :=
  { rows := 2, cols := 2, cells := [10], cells_indices := [0],
    table_indices := [0, ds.none, ds.none, ds.none] }

/-! ## Basic lemmas about the machine-arithmetic helpers -/

theorem Int_ofNat_eq (n : Nat) : Int.ofNat n = (n : Int) := rfl

theorem getElem?_isSome_iff {xs : List α} {n : Nat} :
    (xs[n]?).isSome ↔ n < xs.length := by
  rw [Option.isSome_iff_exists]
  constructor
  · rintro ⟨v, hv⟩
    exact (List.getElem?_eq_some.mp hv).1
  · intro h
    exact ⟨xs[n], List.getElem?_eq_getElem h⟩

theorem toInt32_ofNat {n : Nat} (h : n < 2147483648) :
    toInt32 (Int.ofNat n) = Int.ofNat n := by
  unfold toInt32
  simp only [Int_ofNat_eq]
  have h1 : ((n : Int)) % 4294967296 = (n : Int) := by omega
  rw [h1, if_pos (by omega)]

theorem toUInt32n_ofNat {n : Nat} (h : n < 4294967296) :
    toUInt32n (Int.ofNat n) = n := by
  unfold toUInt32n
  simp only [Int_ofNat_eq]
  have h1 : ((n : Int)) % 4294967296 = (n : Int) := by omega
  rw [h1]
  exact Int.toNat_natCast n

theorem vecAt_ofNat (xs : List α) (n : Nat) : vecAt xs (Int.ofNat n) = xs[n]? := by
  unfold vecAt
  rw [if_pos (by simp only [Int_ofNat_eq]; omega)]
  rfl

theorem vecAt_natCast (xs : List α) (n : Nat) : vecAt xs ((n : Int)) = xs[n]? :=
  vecAt_ofNat xs n

theorem vecAt_neg (xs : List α) {i : Int} (h : i < 0) : vecAt xs i = Option.none := by
  unfold vecAt
  rw [if_neg (by omega)]

theorem vecAt_none_sentinel (xs : List α) : vecAt xs ds.none = Option.none :=
  vecAt_neg xs (by norm_num [ds.none])

theorem vecAt_eq_some {xs : List α} {i : Int} {v : α} :
    vecAt xs i = some v ↔ 0 ≤ i ∧ xs[i.toNat]? = some v := by
  unfold vecAt
  by_cases h : 0 ≤ i
  · rw [if_pos h]; simp [h]
  · rw [if_neg h]; simp [h]

theorem vecAt_isSome {xs : List α} {i : Int} :
    (vecAt xs i).isSome ↔ 0 ≤ i ∧ i.toNat < xs.length := by
  unfold vecAt
  by_cases h : 0 ≤ i
  · rw [if_pos h]
    rw [getElem?_isSome_iff]
    simp [h]
  · rw [if_neg h]
    simp only [Option.isSome_none, Bool.false_eq_true, false_iff]
    exact fun hc => h hc.1

theorem vecSet_ofNat (xs : List α) (n : Nat) (v : α) :
    vecSet xs (Int.ofNat n) v = xs.set n v := rfl

/-! ## Lemmas about `swap_and_erase_vec` -/

theorem swap_and_erase_vec_length (xs : List α) (i : Nat) (h : xs ≠ []) :
    (swap_and_erase_vec xs i).length = xs.length - 1 := by
  unfold swap_and_erase_vec
  match hl : xs.getLast? with
  | Option.none => exact absurd (List.getLast?_eq_none_iff.mp hl) h
  | some last => simp [List.length_set]

theorem swap_and_erase_vec_getElem? (xs : List α) (i j : Nat) (hj : j < xs.length - 1) :
    (swap_and_erase_vec xs i)[j]? =
      if j = i then xs[xs.length - 1]? else xs[j]? := by
  have hne : xs ≠ [] := by
    intro h; subst h; simp at hj
  unfold swap_and_erase_vec
  match hl : xs.getLast? with
  | Option.none => exact absurd (List.getLast?_eq_none_iff.mp hl) hne
  | some last =>
    rw [List.getLast?_eq_getElem?] at hl
    rw [List.getElem?_dropLast, List.length_set, if_pos hj, List.getElem?_set]
    by_cases hij : j = i
    · subst hij
      rw [if_pos rfl, if_pos rfl, if_pos (show j < xs.length by omega), hl]
    · rw [if_neg (fun hc => hij hc.symm), if_neg hij]

theorem vecAt_nonneg {xs : List α} {i : Int} (h : 0 ≤ i) : vecAt xs i = xs[i.toNat]? :=
  if_pos h

theorem vecAt_none_iff {xs : List α} {i : Int} :
    vecAt xs i = Option.none ↔ ¬ (0 ≤ i ∧ i.toNat < xs.length) := by
  rw [← Option.not_isSome_iff_eq_none]
  exact not_congr vecAt_isSome

theorem none_ne_natCast (n : Nat) : ds.none ≠ ((n : Int)) := by
  simp only [ds.none]
  intro h
  have h2 : (0 : Int) ≤ ((n : Int)) := Int.natCast_nonneg n
  rw [← h] at h2
  norm_num at h2

/-! ## The invariant on fresh tables, and its first consequences -/

theorem Inv_mk_table (rows cols : Nat) (h : rows * cols < 2147483648) :
    Inv (table.mk_table (α := α) rows cols) := by
  have hlen : (List.replicate ((rows * cols) % 4294967296) ds.none).length = rows * cols := by
    rw [List.length_replicate]
    omega
  refine ⟨?_, ?_, ?_, ?_, ?_, ?_⟩
  · exact hlen
  · exact h
  · rfl
  · intro j hj
    simp [table.mk_table] at hj
  · intro c hc
    left
    simp only [table.mk_table] at hc
    show (List.replicate ((rows * cols) % 4294967296) ds.none)[c]? = some ds.none
    rw [List.getElem?_replicate, if_pos (by omega)]
  · intro c j _ hj
    simp [table.mk_table] at hj

theorem count_le (t : table α) (hInv : Inv t) : t.cells.length ≤ t.rows * t.cols := by
  have hcard := Finset.card_range t.cells.length
  have hcard2 := Finset.card_range (t.rows * t.cols)
  rw [← hcard, ← hcard2]
  apply Finset.card_le_card_of_injOn (fun j => ((t.cells_indices[j]?).getD ds.none).toNat)
  · intro j hj
    rw [Finset.mem_range] at hj
    have hj' : j < t.cells_indices.length := by rw [← hInv.len_eq]; exact hj
    obtain ⟨c, hcj, hclt⟩ := hInv.back_lt j hj'
    rw [Finset.mem_range, hcj]
    simpa using hclt
  · intro j hj j' hj' heq
    simp only [Finset.coe_range, Set.mem_Iio] at hj hj'
    have hjl : j < t.cells_indices.length := by rw [← hInv.len_eq]; exact hj
    have hjl' : j' < t.cells_indices.length := by rw [← hInv.len_eq]; exact hj'
    obtain ⟨c, hcj, hclt⟩ := hInv.back_lt j hjl
    obtain ⟨c', hcj', hclt'⟩ := hInv.back_lt j' hjl'
    have heq2 : ((t.cells_indices[j]?).getD ds.none).toNat =
        ((t.cells_indices[j']?).getD ds.none).toNat := heq
    rw [hcj, hcj'] at heq2
    simp only [Option.getD_some] at heq2
    have hcc : c = c' := by exact heq2
    subst hcc
    have h1 : t.table_indices[c]? = some ((j : Int)) := (hInv.link c j hclt hj).mpr hcj
    have h2 : t.table_indices[c]? = some ((j' : Int)) := (hInv.link c j' hclt hj').mpr hcj'
    rw [h1] at h2
    simpa using h2

/-! ## The flattened index for in-rectangle coordinates -/

theorem flat_lt (t : table α) {row col : Nat} (hr : row < t.rows) (hc : col < t.cols) :
    row * t.cols + col < t.rows * t.cols := by
  have h1 : row * t.cols + col < (row + 1) * t.cols := by
    rw [Nat.add_mul, Nat.one_mul]; omega
  have h2 : (row + 1) * t.cols ≤ t.rows * t.cols := Nat.mul_le_mul_right _ hr
  omega

theorem gti_in_rect (t : table α) (hs : t.rows * t.cols < 2147483648) {row col : Nat}
    (hr : row < t.rows) (hc : col < t.cols) :
    t.get_table_index (Int.ofNat row) (Int.ofNat col) = Int.ofNat (row * t.cols + col) := by
  unfold table.get_table_index
  have h1 : (Int.ofNat row) * (t.cols : Int) + Int.ofNat col = Int.ofNat (row * t.cols + col) := by
    simp only [Int_ofNat_eq]; push_cast; ring
  rw [h1]
  exact toInt32_ofNat (lt_trans (flat_lt t hr hc) hs)

/-! ## `cellVal` in terms of the lookup entry -/

theorem cellVal_of_entry {t : table α} {c j : Nat}
    (h : t.table_indices[c]? = some ((j : Int))) : cellVal t c = t.cells[j]? := by
  unfold cellVal
  rw [h]

theorem cellVal_of_entry_none {t : table α} {c : Nat}
    (h : t.table_indices[c]? = some ds.none) : cellVal t c = Option.none := by
  unfold cellVal
  rw [h]
  rfl

theorem cellVal_of_len_le {t : table α} {c : Nat}
    (h : t.table_indices.length ≤ c) : cellVal t c = Option.none := by
  unfold cellVal
  rw [List.getElem?_eq_none h]

/-! ## Behaviour of the read-only accessors -/

theorem contains_in_range {t : table α} (hInv : Inv t) {row col : Int}
    (h0 : 0 ≤ t.get_table_index row col)
    (hlt : (t.get_table_index row col).toNat < t.rows * t.cols) :
    t.contains row col = .ok ((cellVal t (t.get_table_index row col).toNat).isSome) := by
  have hv : vecAt t.table_indices (t.get_table_index row col) =
      t.table_indices[(t.get_table_index row col).toNat]? := vecAt_nonneg h0
  unfold table.contains
  rcases hInv.lookup_shape _ hlt with hnone | ⟨j, hj, hsome⟩
  · rw [hv, hnone, cellVal_of_entry_none hnone]
    simp
  · rw [hv, hsome, cellVal_of_entry hsome]
    have hne : ¬ ((j : Int) = ds.none) := by
      simp only [ds.none]; omega
    have h2 : (t.cells[j]?).isSome = true := getElem?_isSome_iff.mpr hj
    simp [hne, h2]

theorem at_in_range {t : table α} (hInv : Inv t) {row col : Int}
    (h0 : 0 ≤ t.get_table_index row col)
    (hlt : (t.get_table_index row col).toNat < t.rows * t.cols) :
    t.at_ row col = (match cellVal t (t.get_table_index row col).toNat with
      | some v => .ok v
      | Option.none => .error .notFound) := by
  have hv : vecAt t.table_indices (t.get_table_index row col) =
      t.table_indices[(t.get_table_index row col).toNat]? := vecAt_nonneg h0
  unfold table.at_
  rcases hInv.lookup_shape _ hlt with hnone | ⟨j, hj, hsome⟩
  · rw [hv, hnone, cellVal_of_entry_none hnone]
    simp [vecAt_none_sentinel]
  · rw [hv, hsome, cellVal_of_entry hsome]
    have hne : ¬ ((j : Int) = ds.none) := by
      simp only [ds.none]; omega
    obtain ⟨v, hval⟩ := Option.isSome_iff_exists.mp (getElem?_isSome_iff.mpr hj)
    rw [hval]
    simp [vecAt_natCast, hval, hne]

theorem get_in_range {t : table α} (hInv : Inv t) {row col : Int}
    (h0 : 0 ≤ t.get_table_index row col)
    (hlt : (t.get_table_index row col).toNat < t.rows * t.cols) :
    t.get row col = .ok (cellVal t (t.get_table_index row col).toNat) := by
  have hv : vecAt t.table_indices (t.get_table_index row col) =
      t.table_indices[(t.get_table_index row col).toNat]? := vecAt_nonneg h0
  unfold table.get
  rcases hInv.lookup_shape _ hlt with hnone | ⟨j, hj, hsome⟩
  · rw [hv, hnone, cellVal_of_entry_none hnone]
    simp
  · rw [hv, hsome, cellVal_of_entry hsome]
    have hne : ¬ ((j : Int) = ds.none) := by
      simp only [ds.none]; omega
    obtain ⟨v, hval⟩ := Option.isSome_iff_exists.mp (getElem?_isSome_iff.mpr hj)
    rw [hval]
    simp [vecAt_natCast, hval, hne]

theorem at_else_in_range {t : table α} (hInv : Inv t) {row col : Int} (fb : α)
    (h0 : 0 ≤ t.get_table_index row col)
    (hlt : (t.get_table_index row col).toNat < t.rows * t.cols) :
    t.at_else row col fb = .ok ((cellVal t (t.get_table_index row col).toNat).getD fb) := by
  have hv : vecAt t.table_indices (t.get_table_index row col) =
      t.table_indices[(t.get_table_index row col).toNat]? := vecAt_nonneg h0
  unfold table.at_else
  rcases hInv.lookup_shape _ hlt with hnone | ⟨j, hj, hsome⟩
  · rw [hv, hnone, cellVal_of_entry_none hnone]
    simp
  · rw [hv, hsome, cellVal_of_entry hsome]
    have hne : ¬ ((j : Int) = ds.none) := by
      simp only [ds.none]; omega
    obtain ⟨v, hval⟩ := Option.isSome_iff_exists.mp (getElem?_isSome_iff.mpr hj)
    rw [hval]
    simp [vecAt_natCast, hval, hne]

/-! ## Out-of-range behaviour of each operation -/

theorem contains_oob {t : table α} {row col : index} (h : flat_oob t row col) :
    t.contains row col = .error .outOfRange := by
  unfold table.contains
  rw [vecAt_none_iff.mpr h]

theorem at_oob {t : table α} {row col : index} (h : flat_oob t row col) :
    t.at_ row col = .error .outOfRange := by
  unfold table.at_
  rw [vecAt_none_iff.mpr h]

theorem at_else_oob {t : table α} {row col : index} (fb : α) (h : flat_oob t row col) :
    t.at_else row col fb = .error .outOfRange := by
  unfold table.at_else
  rw [vecAt_none_iff.mpr h]

theorem get_oob {t : table α} {row col : index} (h : flat_oob t row col) :
    t.get row col = .error .outOfRange := by
  unfold table.get
  rw [vecAt_none_iff.mpr h]

theorem set_oob {t : table α} {row col : index} (v : α) (h : flat_oob t row col) :
    t.set row col v = .err .outOfRange t := by
  unfold table.set
  rw [vecAt_none_iff.mpr h]

theorem emplace_oob {t : table α} {row col : index} (v : α) (h : flat_oob t row col) :
    t.emplace row col v = .err .outOfRange t := by
  unfold table.emplace
  rw [vecAt_none_iff.mpr h]

theorem erase_oob {t : table α} {row col : index} (h : flat_oob t row col) :
    t.erase row col = .err .outOfRange t := by
  unfold table.erase
  rw [vecAt_none_iff.mpr h]

/-! ## `set`: the two in-range branches -/

theorem set_empty_cell {t : table α} (hInv : Inv t) {row col : index} (v : α)
    (h0 : 0 ≤ t.get_table_index row col)
    (hlt : (t.get_table_index row col).toNat < t.rows * t.cols)
    (hempty : t.table_indices[(t.get_table_index row col).toNat]? = some ds.none) :
    t.set row col v = .ok
      { t with
        cells := t.cells ++ [v]
        cells_indices := t.cells_indices ++ [(((t.get_table_index row col).toNat : Nat) : Int)]
        table_indices := t.table_indices.set (t.get_table_index row col).toNat
          (Int.ofNat t.cells.length) } := by
  have hn : toInt32 (Int.ofNat t.cells.length) = Int.ofNat t.cells.length :=
    toInt32_ofNat (lt_of_le_of_lt (count_le t hInv) hInv.small)
  unfold table.set
  rw [vecAt_nonneg h0, hempty]
  simp only [hn]
  rw [Int.toNat_of_nonneg h0]
  rfl

theorem set_populated_cell {t : table α} (hInv : Inv t) {row col : index} (v : α) {j : Nat}
    (h0 : 0 ≤ t.get_table_index row col)
    (hentry : t.table_indices[(t.get_table_index row col).toNat]? = some ((j : Int)))
    (hj : j < t.cells.length) :
    t.set row col v = .ok { t with cells := t.cells.set j v } := by
  have hne : ¬ ((j : Int) = ds.none) := by
    simp only [ds.none]; omega
  obtain ⟨w, hw⟩ := Option.isSome_iff_exists.mp (getElem?_isSome_iff.mpr hj)
  unfold table.set
  rw [vecAt_nonneg h0, hentry]
  simp [vecAt_natCast, hne, hw, vecSet]

/-- `emplace` (with the constructed value as argument) has the same
behaviour as `set`. -/
theorem emplace_eq_set (t : table α) (row col : index) (v : α) :
    t.emplace row col v = t.set row col v := rfl

/-! ## List-indexing helpers -/

theorem getElem?_set_ne {xs : List α} {i j : Nat} (h : i ≠ j) (a : α) :
    (xs.set i a)[j]? = xs[j]? := by
  rw [List.getElem?_set, if_neg h]

theorem getElem?_set_self {xs : List α} {i : Nat} (h : i < xs.length) (a : α) :
    (xs.set i a)[i]? = some a := by
  rw [List.getElem?_set, if_pos rfl, if_pos h]

theorem getElem?_append_lt {xs : List α} {j : Nat} (h : j < xs.length) (a : α) :
    (xs ++ [a])[j]? = xs[j]? := by
  rw [List.getElem?_append, if_pos h]

/-! ## Invariant preservation and `cellVal` update for `set`/`emplace` -/

theorem Inv_append {t : table α} (hInv : Inv t) {c : Nat} (hc : c < t.rows * t.cols)
    (hempty : t.table_indices[c]? = some ds.none) (v : α) :
    Inv { t with
          cells := t.cells ++ [v]
          cells_indices := t.cells_indices ++ [(c : Int)]
          table_indices := t.table_indices.set c (Int.ofNat t.cells.length) } := by
  have hcl : c < t.table_indices.length := by rw [hInv.len_ti]; exact hc
  have hlen_ci : t.cells.length = t.cells_indices.length := hInv.len_eq
  refine ⟨?_, hInv.small, ?_, ?_, ?_, ?_⟩
  · simpa using hInv.len_ti
  · simp [hInv.len_eq]
  · intro j hj
    simp only [List.length_append, List.length_singleton] at hj
    by_cases hje : j < t.cells_indices.length
    · obtain ⟨c2, hc2, hlt2⟩ := hInv.back_lt j hje
      refine ⟨c2, ?_, hlt2⟩
      show (t.cells_indices ++ [((c : Int))])[j]? = _
      rw [getElem?_append_lt hje]
      exact hc2
    · have hje2 : j = t.cells_indices.length := by omega
      subst hje2
      exact ⟨c, List.getElem?_concat_length _ _, hc⟩
  · intro d hd
    replace hd : d < t.rows * t.cols := hd
    by_cases hdc : d = c
    · subst hdc
      right
      refine ⟨t.cells.length, by simp, ?_⟩
      show (t.table_indices.set d (Int.ofNat t.cells.length))[d]? = _
      rw [getElem?_set_self hcl]
      rfl
    · rcases hInv.lookup_shape d hd with hn | ⟨j, hj, hs⟩
      · left
        show (t.table_indices.set c (Int.ofNat t.cells.length))[d]? = _
        rw [getElem?_set_ne (fun h => hdc h.symm)]
        exact hn
      · right
        refine ⟨j, ?_, ?_⟩
        · show j < (t.cells ++ [v]).length
          simp only [List.length_append, List.length_singleton]
          omega
        · show (t.table_indices.set c (Int.ofNat t.cells.length))[d]? = _
          rw [getElem?_set_ne (fun h => hdc h.symm)]
          exact hs
  · intro d j hd hj
    replace hd : d < t.rows * t.cols := hd
    replace hj : j < (t.cells ++ [v]).length := hj
    simp only [List.length_append, List.length_singleton] at hj
    by_cases hdc : d = c
    · subst hdc
      by_cases hjl : j = t.cells.length
      · subst hjl
        constructor
        · intro _
          show (t.cells_indices ++ [((d : Int))])[t.cells.length]? = _
          rw [hlen_ci, List.getElem?_concat_length]
        · intro _
          show (t.table_indices.set d (Int.ofNat t.cells.length))[d]? = _
          rw [getElem?_set_self hcl]
          rfl
      · have hjlt : j < t.cells.length := by omega
        constructor
        · intro hL
          exfalso
          rw [show ({ t with
                cells := t.cells ++ [v]
                cells_indices := t.cells_indices ++ [((d : Int))]
                table_indices := t.table_indices.set d (Int.ofNat t.cells.length)
              } : table α).table_indices = t.table_indices.set d (Int.ofNat t.cells.length)
              from rfl, getElem?_set_self hcl] at hL
          simp only [Option.some.injEq, Int_ofNat_eq, Int.natCast_inj] at hL
          omega
        · intro hR
          exfalso
          rw [show ({ t with
                cells := t.cells ++ [v]
                cells_indices := t.cells_indices ++ [((d : Int))]
                table_indices := t.table_indices.set d (Int.ofNat t.cells.length)
              } : table α).cells_indices = t.cells_indices ++ [((d : Int))] from rfl,
              getElem?_append_lt (by omega)] at hR
          have hti := (hInv.link d j hd hjlt).mpr hR
          rw [hempty] at hti
          simp only [Option.some.injEq] at hti
          exact none_ne_natCast j hti
    · by_cases hjl : j = t.cells.length
      · subst hjl
        constructor
        · intro hL
          exfalso
          rw [show ({ t with
                cells := t.cells ++ [v]
                cells_indices := t.cells_indices ++ [((c : Int))]
                table_indices := t.table_indices.set c (Int.ofNat t.cells.length)
              } : table α).table_indices = t.table_indices.set c (Int.ofNat t.cells.length)
              from rfl, getElem?_set_ne (fun h => hdc h.symm)] at hL
          rcases hInv.lookup_shape d hd with hn | ⟨j2, hj2, hs⟩
          · rw [hn] at hL
            simp only [Option.some.injEq] at hL
            exact none_ne_natCast t.cells.length hL
          · rw [hs] at hL
            simp only [Option.some.injEq, Int.natCast_inj] at hL
            omega
        · intro hR
          exfalso
          rw [show ({ t with
                cells := t.cells ++ [v]
                cells_indices := t.cells_indices ++ [((c : Int))]
                table_indices := t.table_indices.set c (Int.ofNat t.cells.length)
              } : table α).cells_indices = t.cells_indices ++ [((c : Int))] from rfl,
              hlen_ci, List.getElem?_concat_length] at hR
          simp only [Option.some.injEq, Int.natCast_inj] at hR
          exact hdc hR.symm
      · have hjlt : j < t.cells.length := by omega
        show ((t.table_indices.set c (Int.ofNat t.cells.length))[d]? = some ((j : Int))) ↔
          ((t.cells_indices ++ [((c : Int))])[j]? = some ((d : Int)))
        rw [getElem?_set_ne (fun h => hdc h.symm), getElem?_append_lt (by omega)]
        exact hInv.link d j hd hjlt

theorem cellVal_append {t : table α} (hInv : Inv t) {c : Nat} (hc : c < t.rows * t.cols)
    (v : α) (d : Nat) :
    cellVal { t with
          cells := t.cells ++ [v]
          cells_indices := t.cells_indices ++ [(c : Int)]
          table_indices := t.table_indices.set c (Int.ofNat t.cells.length) } d =
      if d = c then some v else cellVal t d := by
  have hcl : c < t.table_indices.length := by rw [hInv.len_ti]; exact hc
  by_cases hdc : d = c
  · subst hdc
    rw [if_pos rfl]
    rw [cellVal_of_entry (j := t.cells.length)
      (show (t.table_indices.set d (Int.ofNat t.cells.length))[d]? = _ from
        getElem?_set_self hcl _)]
    exact List.getElem?_concat_length _ _
  · rw [if_neg hdc]
    by_cases hd : d < t.rows * t.cols
    · have h1 : (t.table_indices.set c (Int.ofNat t.cells.length))[d]? =
          t.table_indices[d]? := getElem?_set_ne (fun h => hdc h.symm) _
      rcases hInv.lookup_shape d hd with hn | ⟨j, hj, hs⟩
      · rw [cellVal_of_entry_none (show _ = some ds.none from h1.trans hn),
          cellVal_of_entry_none hn]
      · rw [cellVal_of_entry (show _ = some ((j : Int)) from h1.trans hs),
          cellVal_of_entry hs]
        exact getElem?_append_lt hj v
    · have hge : t.table_indices.length ≤ d := by rw [hInv.len_ti]; omega
      rw [cellVal_of_len_le (by simpa using hge), cellVal_of_len_le hge]

theorem Inv_modify {t : table α} (hInv : Inv t) (j : Nat) (v : α) :
    Inv { t with cells := t.cells.set j v } := by
  refine ⟨hInv.len_ti, hInv.small, ?_, hInv.back_lt, ?_, ?_⟩
  · simp [hInv.len_eq]
  · intro d hd
    rcases hInv.lookup_shape d hd with hn | ⟨j2, hj2, hs⟩
    · exact Or.inl hn
    · exact Or.inr ⟨j2, by simpa using hj2, hs⟩
  · intro d j2 hd hj2
    simp only [List.length_set] at hj2
    exact hInv.link d j2 hd hj2

theorem cellVal_modify {t : table α} (hInv : Inv t) {c j : Nat}
    (hc : c < t.rows * t.cols)
    (hentry : t.table_indices[c]? = some ((j : Int))) (hj : j < t.cells.length) (v : α)
    (d : Nat) :
    cellVal { t with cells := t.cells.set j v } d =
      if d = c then some v else cellVal t d := by
  by_cases hdc : d = c
  · subst hdc
    rw [if_pos rfl, cellVal_of_entry (t := { t with cells := t.cells.set j v }) hentry]
    exact getElem?_set_self hj v
  · rw [if_neg hdc]
    by_cases hd : d < t.rows * t.cols
    · rcases hInv.lookup_shape d hd with hn | ⟨j2, hj2, hs⟩
      · rw [cellVal_of_entry_none (t := { t with cells := t.cells.set j v }) hn,
          cellVal_of_entry_none hn]
      · have hjj : j2 ≠ j := by
          intro he
          subst he
          have h1 := (hInv.link d j2 hd hj2).mp hs
          have h2 := (hInv.link c j2 hc hj2).mp hentry
          rw [h1] at h2
          simp only [Option.some.injEq, Int.natCast_inj] at h2
          exact hdc h2
        rw [cellVal_of_entry (t := { t with cells := t.cells.set j v }) hs,
          cellVal_of_entry hs]
        exact getElem?_set_ne (fun h => hjj h.symm) v
    · have hge : t.table_indices.length ≤ d := by rw [hInv.len_ti]; omega
      rw [cellVal_of_len_le (t := { t with cells := t.cells.set j v }) hge,
        cellVal_of_len_le hge]

/-! ## `erase`: behaviour in each case -/

theorem length_pos_of_getElem? {xs : List α} {j : Nat} {v : α} (h : xs[j]? = some v) :
    xs ≠ [] := by
  intro he
  subst he
  simp at h

theorem erase_empty_cell {t : table α} {row col : index}
    (h0 : 0 ≤ t.get_table_index row col)
    (hentry : t.table_indices[(t.get_table_index row col).toNat]? = some ds.none) :
    t.erase row col = .ub := by
  unfold table.erase
  rw [vecAt_nonneg h0, hentry]
  have hneg : ¬ (0 ≤ ds.none ∧ ds.none.toNat < t.cells_indices.length ∧
      ds.none.toNat < t.cells.length) := by
    intro hcon
    have := hcon.1
    rw [ds.none] at this
    norm_num at this
  simp only [hneg, if_false]

theorem erase_last_slot {t : table α} (hInv : Inv t) {row col : index} {j : Nat}
    (h0 : 0 ≤ t.get_table_index row col)
    (hentry : t.table_indices[(t.get_table_index row col).toNat]? = some ((j : Int)))
    (hj : j + 1 = t.cells.length) :
    t.erase row col = .ok
      { t with
        cells := swap_and_erase_vec t.cells j
        cells_indices := swap_and_erase_vec t.cells_indices j
        table_indices :=
          t.table_indices.set (t.get_table_index row col).toNat ds.none } := by
  have hcne : t.cells ≠ [] := by
    intro he
    rw [he] at hj
    simp at hj
  have hlen2 : (swap_and_erase_vec t.cells j).length = t.cells.length - 1 :=
    swap_and_erase_vec_length _ _ hcne
  have hguard : 0 ≤ ((j : Int)) ∧ j < t.cells_indices.length ∧ j < t.cells.length := by
    refine ⟨by omega, ?_, by omega⟩
    rw [← hInv.len_eq]; omega
  unfold table.erase
  rw [vecAt_nonneg h0, hentry]
  simp only [Int.toNat_natCast]
  rw [if_pos hguard]
  have hcond : j = (swap_and_erase_vec t.cells j).length := by rw [hlen2]; omega
  rw [if_pos hcond]
  rfl

theorem erase_swap_slot {t : table α} (hInv : Inv t) {row col : index} {j cl : Nat}
    (h0 : 0 ≤ t.get_table_index row col)
    (hentry : t.table_indices[(t.get_table_index row col).toNat]? = some ((j : Int)))
    (hj : j + 1 < t.cells.length)
    (hlast : t.cells_indices[t.cells.length - 1]? = some ((cl : Int)))
    (hcl : cl < t.rows * t.cols) :
    t.erase row col = .ok
      { t with
        cells := swap_and_erase_vec t.cells j
        cells_indices := swap_and_erase_vec t.cells_indices j
        table_indices :=
          (t.table_indices.set (t.get_table_index row col).toNat ds.none).set cl
            ((j : Int)) } := by
  have hcne : t.cells ≠ [] := by
    intro he
    rw [he] at hj
    simp at hj
  have hcilen : t.cells_indices.length = t.cells.length := hInv.len_eq.symm
  have hlen2 : (swap_and_erase_vec t.cells j).length = t.cells.length - 1 :=
    swap_and_erase_vec_length _ _ hcne
  have hguard : 0 ≤ ((j : Int)) ∧ j < t.cells_indices.length ∧ j < t.cells.length := by
    refine ⟨by omega, by omega, by omega⟩
  have hci2 : (swap_and_erase_vec t.cells_indices j)[j]? = some ((cl : Int)) := by
    rw [swap_and_erase_vec_getElem? _ _ _ (by omega), if_pos rfl, hcilen]
    exact hlast
  have hclti : cl < (t.table_indices.set (t.get_table_index row col).toNat ds.none).length := by
    rw [List.length_set, hInv.len_ti]
    exact hcl
  obtain ⟨w, hw⟩ := Option.isSome_iff_exists.mp (getElem?_isSome_iff.mpr hclti)
  have hclne : ¬ ((cl : Int) = ds.none) := fun h => none_ne_natCast cl h.symm
  unfold table.erase
  rw [vecAt_nonneg h0, hentry]
  simp only [Int.toNat_natCast]
  rw [if_pos hguard]
  have hcond : ¬ (j = (swap_and_erase_vec t.cells j).length) := by rw [hlen2]; omega
  rw [if_neg hcond]
  rw [vecAt_natCast, hci2]
  simp only [vecSet, Int.toNat_natCast, ne_eq, hclne, not_false_iff, if_true]
  rw [vecAt_natCast, hw]

/-! ## Invariant preservation and `cellVal` update for `erase` -/

theorem Inv_erase_last {t : table α} (hInv : Inv t) {c j : Nat} (hc : c < t.rows * t.cols)
    (hentry : t.table_indices[c]? = some ((j : Int))) (hj : j + 1 = t.cells.length) :
    Inv { t with
          cells := swap_and_erase_vec t.cells j
          cells_indices := swap_and_erase_vec t.cells_indices j
          table_indices := t.table_indices.set c ds.none } := by
  have hcl : c < t.table_indices.length := by rw [hInv.len_ti]; exact hc
  have hcne : t.cells ≠ [] := by
    intro he
    rw [he] at hj
    simp at hj
  have hcine : t.cells_indices ≠ [] := by
    intro he
    have h2 := hInv.len_eq
    rw [he] at h2
    simp only [List.length_nil] at h2
    omega
  have hl1 : (swap_and_erase_vec t.cells j).length = t.cells.length - 1 :=
    swap_and_erase_vec_length _ _ hcne
  have hl2 : (swap_and_erase_vec t.cells_indices j).length = t.cells_indices.length - 1 :=
    swap_and_erase_vec_length _ _ hcine
  have hlen : t.cells_indices.length = t.cells.length := hInv.len_eq.symm
  have hci2 : ∀ j2 : Nat, j2 < t.cells.length - 1 →
      (swap_and_erase_vec t.cells_indices j)[j2]? = t.cells_indices[j2]? := by
    intro j2 hj2
    rw [swap_and_erase_vec_getElem? _ _ _ (by omega), if_neg (by omega)]
  refine ⟨?_, hInv.small, ?_, ?_, ?_, ?_⟩
  · simpa using hInv.len_ti
  · show (swap_and_erase_vec t.cells j).length = (swap_and_erase_vec t.cells_indices j).length
    rw [hl1, hl2, hlen]
  · intro j2 hj2
    replace hj2 : j2 < (swap_and_erase_vec t.cells_indices j).length := hj2
    rw [hl2, hlen] at hj2
    obtain ⟨c2, hc2, hlt2⟩ := hInv.back_lt j2 (by omega)
    refine ⟨c2, ?_, hlt2⟩
    show (swap_and_erase_vec t.cells_indices j)[j2]? = some ((c2 : Int))
    rw [hci2 j2 (by omega)]
    exact hc2
  · intro d hd
    replace hd : d < t.rows * t.cols := hd
    by_cases hdc : d = c
    · subst hdc
      left
      show (t.table_indices.set d ds.none)[d]? = some ds.none
      exact getElem?_set_self hcl _
    · rcases hInv.lookup_shape d hd with hn | ⟨j2, hj2, hs⟩
      · left
        show (t.table_indices.set c ds.none)[d]? = some ds.none
        rw [getElem?_set_ne (fun h => hdc h.symm)]
        exact hn
      · have hj2j : j2 ≠ j := by
          intro he
          subst he
          have h1 := (hInv.link d j2 hd hj2).mp hs
          have h2 := (hInv.link c j2 hc hj2).mp hentry
          rw [h1] at h2
          simp only [Option.some.injEq, Int.natCast_inj] at h2
          exact hdc h2
        right
        refine ⟨j2, ?_, ?_⟩
        · show j2 < (swap_and_erase_vec t.cells j).length
          rw [hl1]
          omega
        · show (t.table_indices.set c ds.none)[d]? = some ((j2 : Int))
          rw [getElem?_set_ne (fun h => hdc h.symm)]
          exact hs
  · intro d j2 hd hj2
    replace hd : d < t.rows * t.cols := hd
    replace hj2 : j2 < (swap_and_erase_vec t.cells j).length := hj2
    rw [hl1] at hj2
    show ((t.table_indices.set c ds.none)[d]? = some ((j2 : Int))) ↔
      ((swap_and_erase_vec t.cells_indices j)[j2]? = some ((d : Int)))
    rw [hci2 j2 (by omega)]
    by_cases hdc : d = c
    · subst hdc
      rw [getElem?_set_self hcl]
      constructor
      · intro hL
        exfalso
        simp only [Option.some.injEq] at hL
        exact none_ne_natCast j2 hL
      · intro hR
        exfalso
        have h2 := (hInv.link d j2 hd (by omega)).mpr hR
        rw [hentry] at h2
        simp only [Option.some.injEq, Int.natCast_inj] at h2
        omega
    · rw [getElem?_set_ne (fun h => hdc h.symm)]
      exact hInv.link d j2 hd (by omega)

theorem cellVal_erase_last {t : table α} (hInv : Inv t) {c j : Nat}
    (hc : c < t.rows * t.cols)
    (hentry : t.table_indices[c]? = some ((j : Int))) (hj : j + 1 = t.cells.length)
    (d : Nat) :
    cellVal { t with
          cells := swap_and_erase_vec t.cells j
          cells_indices := swap_and_erase_vec t.cells_indices j
          table_indices := t.table_indices.set c ds.none } d =
      if d = c then Option.none else cellVal t d := by
  have hcl : c < t.table_indices.length := by rw [hInv.len_ti]; exact hc
  by_cases hdc : d = c
  · subst hdc
    rw [if_pos rfl]
    exact cellVal_of_entry_none (getElem?_set_self hcl _)
  · rw [if_neg hdc]
    by_cases hd : d < t.rows * t.cols
    · have hEq : (t.table_indices.set c ds.none)[d]? = t.table_indices[d]? :=
        getElem?_set_ne (fun h => hdc h.symm) _
      rcases hInv.lookup_shape d hd with hn | ⟨j2, hj2, hs⟩
      · rw [cellVal_of_entry_none (show _ = some ds.none from hEq.trans hn),
          cellVal_of_entry_none hn]
      · have hj2j : j2 ≠ j := by
          intro he
          subst he
          have h1 := (hInv.link d j2 hd hj2).mp hs
          have h2 := (hInv.link c j2 hc hj2).mp hentry
          rw [h1] at h2
          simp only [Option.some.injEq, Int.natCast_inj] at h2
          exact hdc h2
        rw [cellVal_of_entry (show _ = some ((j2 : Int)) from hEq.trans hs),
          cellVal_of_entry hs]
        show (swap_and_erase_vec t.cells j)[j2]? = t.cells[j2]?
        rw [swap_and_erase_vec_getElem? _ _ _ (by omega), if_neg hj2j]
    · have hge : t.table_indices.length ≤ d := by rw [hInv.len_ti]; omega
      rw [cellVal_of_len_le (by simpa using hge), cellVal_of_len_le hge]

theorem Inv_erase_swap {t : table α} (hInv : Inv t) {c j cl : Nat}
    (hc : c < t.rows * t.cols)
    (hentry : t.table_indices[c]? = some ((j : Int))) (hj : j + 1 < t.cells.length)
    (hlast : t.cells_indices[t.cells.length - 1]? = some ((cl : Int)))
    (hcl : cl < t.rows * t.cols) :
    Inv { t with
          cells := swap_and_erase_vec t.cells j
          cells_indices := swap_and_erase_vec t.cells_indices j
          table_indices := (t.table_indices.set c ds.none).set cl ((j : Int)) } := by
  have hccl : c < t.table_indices.length := by rw [hInv.len_ti]; exact hc
  have hclcl : cl < (t.table_indices.set c ds.none).length := by
    rw [List.length_set, hInv.len_ti]
    exact hcl
  have hcne : t.cells ≠ [] := by
    intro he
    rw [he] at hj
    simp at hj
  have hcine : t.cells_indices ≠ [] := by
    intro he
    have h2 := hInv.len_eq
    rw [he] at h2
    simp only [List.length_nil] at h2
    omega
  have hl1 : (swap_and_erase_vec t.cells j).length = t.cells.length - 1 :=
    swap_and_erase_vec_length _ _ hcne
  have hl2 : (swap_and_erase_vec t.cells_indices j).length = t.cells_indices.length - 1 :=
    swap_and_erase_vec_length _ _ hcine
  have hlen : t.cells_indices.length = t.cells.length := hInv.len_eq.symm
  have hticl : t.table_indices[cl]? = some ((t.cells.length - 1 : Nat) : Int) :=
    (hInv.link cl (t.cells.length - 1) hcl (by omega)).mpr hlast
  have hclc : cl ≠ c := by
    intro he
    subst he
    rw [hentry] at hticl
    simp only [Option.some.injEq, Int.natCast_inj] at hticl
    omega
  have hback_c : t.cells_indices[j]? = some ((c : Int)) :=
    (hInv.link c j hc (by omega)).mp hentry
  have huniq_j : ∀ d : Nat, d < t.rows * t.cols →
      t.table_indices[d]? = some ((j : Int)) → d = c := by
    intro d hd hdj
    have h2 := (hInv.link d j hd (by omega)).mp hdj
    rw [hback_c] at h2
    simp only [Option.some.injEq, Int.natCast_inj] at h2
    exact h2.symm
  have huniq_last : ∀ d : Nat, d < t.rows * t.cols →
      t.table_indices[d]? = some ((t.cells.length - 1 : Nat) : Int) → d = cl := by
    intro d hd hdl
    have h2 := (hInv.link d (t.cells.length - 1) hd (by omega)).mp hdl
    rw [hlast] at h2
    simp only [Option.some.injEq, Int.natCast_inj] at h2
    exact h2.symm
  have hci2 : ∀ j2 : Nat, j2 < t.cells.length - 1 →
      (swap_and_erase_vec t.cells_indices j)[j2]? =
        (if j2 = j then some ((cl : Int)) else t.cells_indices[j2]?) := by
    intro j2 hj2
    rw [swap_and_erase_vec_getElem? _ _ _ (by omega)]
    by_cases hjj : j2 = j
    · rw [if_pos hjj, if_pos hjj, hlen]
      exact hlast
    · rw [if_neg hjj, if_neg hjj]
  have hT2cl : ((t.table_indices.set c ds.none).set cl ((j : Int)))[cl]? =
      some ((j : Int)) := getElem?_set_self hclcl _
  have hT2c : ((t.table_indices.set c ds.none).set cl ((j : Int)))[c]? =
      some ds.none := by
    rw [getElem?_set_ne (fun h => hclc h)]
    exact getElem?_set_self hccl _
  have hT2o : ∀ d : Nat, d ≠ c → d ≠ cl →
      ((t.table_indices.set c ds.none).set cl ((j : Int)))[d]? = t.table_indices[d]? := by
    intro d h1 h2
    rw [getElem?_set_ne (fun h => h2 h.symm), getElem?_set_ne (fun h => h1 h.symm)]
  refine ⟨?_, hInv.small, ?_, ?_, ?_, ?_⟩
  · show ((t.table_indices.set c ds.none).set cl ((j : Int))).length = t.rows * t.cols
    rw [List.length_set, List.length_set]
    exact hInv.len_ti
  · show (swap_and_erase_vec t.cells j).length = (swap_and_erase_vec t.cells_indices j).length
    rw [hl1, hl2, hlen]
  · intro j2 hj2
    replace hj2 : j2 < (swap_and_erase_vec t.cells_indices j).length := hj2
    rw [hl2, hlen] at hj2
    by_cases hjj : j2 = j
    · refine ⟨cl, ?_, hcl⟩
      show (swap_and_erase_vec t.cells_indices j)[j2]? = _
      rw [hci2 j2 (by omega), if_pos hjj]
    · obtain ⟨c2, hc2, hlt2⟩ := hInv.back_lt j2 (by omega)
      refine ⟨c2, ?_, hlt2⟩
      show (swap_and_erase_vec t.cells_indices j)[j2]? = _
      rw [hci2 j2 (by omega), if_neg hjj]
      exact hc2
  · intro d hd
    replace hd : d < t.rows * t.cols := hd
    by_cases hdcl : d = cl
    · subst hdcl
      right
      refine ⟨j, ?_, hT2cl⟩
      show j < (swap_and_erase_vec t.cells j).length
      rw [hl1]
      omega
    · by_cases hdc : d = c
      · subst hdc
        left
        exact hT2c
      · rcases hInv.lookup_shape d hd with hn | ⟨j2, hj2, hs⟩
        · left
          rw [show ({ t with
                cells := swap_and_erase_vec t.cells j
                cells_indices := swap_and_erase_vec t.cells_indices j
                table_indices := (t.table_indices.set c ds.none).set cl ((j : Int))
              } : table α).table_indices =
              (t.table_indices.set c ds.none).set cl ((j : Int)) from rfl,
            hT2o d hdc hdcl]
          exact hn
        · have hj2j : j2 ≠ j := fun he => hdc (huniq_j d hd (he ▸ hs))
          have hj2l : j2 ≠ t.cells.length - 1 := fun he => hdcl (huniq_last d hd (he ▸ hs))
          right
          refine ⟨j2, ?_, ?_⟩
          · show j2 < (swap_and_erase_vec t.cells j).length
            rw [hl1]
            omega
          · rw [show ({ t with
                cells := swap_and_erase_vec t.cells j
                cells_indices := swap_and_erase_vec t.cells_indices j
                table_indices := (t.table_indices.set c ds.none).set cl ((j : Int))
              } : table α).table_indices =
              (t.table_indices.set c ds.none).set cl ((j : Int)) from rfl,
            hT2o d hdc hdcl]
            exact hs
  · intro d j2 hd hj2
    replace hd : d < t.rows * t.cols := hd
    replace hj2 : j2 < (swap_and_erase_vec t.cells j).length := hj2
    rw [hl1] at hj2
    show (((t.table_indices.set c ds.none).set cl ((j : Int)))[d]? = some ((j2 : Int))) ↔
      ((swap_and_erase_vec t.cells_indices j)[j2]? = some ((d : Int)))
    rw [hci2 j2 (by omega)]
    by_cases hdcl : d = cl
    · subst hdcl
      rw [hT2cl]
      by_cases hjj : j2 = j
      · subst hjj
        simp
      · rw [if_neg hjj]
        constructor
        · intro hL
          exfalso
          simp only [Option.some.injEq, Int.natCast_inj] at hL
          omega
        · intro hR
          exfalso
          have h2 := (hInv.link d j2 hd (by omega)).mpr hR
          rw [hticl] at h2
          simp only [Option.some.injEq, Int.natCast_inj] at h2
          omega
    · by_cases hdc : d = c
      · subst hdc
        rw [hT2c]
        by_cases hjj : j2 = j
        · subst hjj
          rw [if_pos rfl]
          constructor
          · intro hL
            exfalso
            simp only [Option.some.injEq] at hL
            exact none_ne_natCast j2 hL
          · intro hR
            exfalso
            simp only [Option.some.injEq, Int.natCast_inj] at hR
            exact hdcl hR.symm
        · rw [if_neg hjj]
          constructor
          · intro hL
            exfalso
            simp only [Option.some.injEq] at hL
            exact none_ne_natCast j2 hL
          · intro hR
            exfalso
            have h2 := (hInv.link d j2 hd (by omega)).mpr hR
            rw [hentry] at h2
            simp only [Option.some.injEq, Int.natCast_inj] at h2
            omega
      · rw [hT2o d hdc hdcl]
        by_cases hjj : j2 = j
        · subst hjj
          rw [if_pos rfl]
          constructor
          · intro hL
            exact absurd (huniq_j d hd hL) hdc
          · intro hR
            exfalso
            simp only [Option.some.injEq, Int.natCast_inj] at hR
            exact hdcl hR.symm
        · rw [if_neg hjj]
          exact hInv.link d j2 hd (by omega)

theorem cellVal_erase_swap {t : table α} (hInv : Inv t) {c j cl : Nat}
    (hc : c < t.rows * t.cols)
    (hentry : t.table_indices[c]? = some ((j : Int))) (hj : j + 1 < t.cells.length)
    (hlast : t.cells_indices[t.cells.length - 1]? = some ((cl : Int)))
    (hcl : cl < t.rows * t.cols) (d : Nat) :
    cellVal { t with
          cells := swap_and_erase_vec t.cells j
          cells_indices := swap_and_erase_vec t.cells_indices j
          table_indices := (t.table_indices.set c ds.none).set cl ((j : Int)) } d =
      if d = c then Option.none else cellVal t d := by
  have hccl : c < t.table_indices.length := by rw [hInv.len_ti]; exact hc
  have hclcl : cl < (t.table_indices.set c ds.none).length := by
    rw [List.length_set, hInv.len_ti]
    exact hcl
  have hticl : t.table_indices[cl]? = some ((t.cells.length - 1 : Nat) : Int) :=
    (hInv.link cl (t.cells.length - 1) hcl (by omega)).mpr hlast
  have hclc : cl ≠ c := by
    intro he
    subst he
    rw [hentry] at hticl
    simp only [Option.some.injEq, Int.natCast_inj] at hticl
    omega
  have hback_c : t.cells_indices[j]? = some ((c : Int)) :=
    (hInv.link c j hc (by omega)).mp hentry
  have huniq_j : ∀ d2 : Nat, d2 < t.rows * t.cols →
      t.table_indices[d2]? = some ((j : Int)) → d2 = c := by
    intro d2 hd2 hdj
    have h2 := (hInv.link d2 j hd2 (by omega)).mp hdj
    rw [hback_c] at h2
    simp only [Option.some.injEq, Int.natCast_inj] at h2
    exact h2.symm
  have huniq_last : ∀ d2 : Nat, d2 < t.rows * t.cols →
      t.table_indices[d2]? = some ((t.cells.length - 1 : Nat) : Int) → d2 = cl := by
    intro d2 hd2 hdl
    have h2 := (hInv.link d2 (t.cells.length - 1) hd2 (by omega)).mp hdl
    rw [hlast] at h2
    simp only [Option.some.injEq, Int.natCast_inj] at h2
    exact h2.symm
  have hT2cl : ((t.table_indices.set c ds.none).set cl ((j : Int)))[cl]? =
      some ((j : Int)) := getElem?_set_self hclcl _
  have hT2c : ((t.table_indices.set c ds.none).set cl ((j : Int)))[c]? =
      some ds.none := by
    rw [getElem?_set_ne (fun h => hclc h)]
    exact getElem?_set_self hccl _
  have hT2o : ∀ d2 : Nat, d2 ≠ c → d2 ≠ cl →
      ((t.table_indices.set c ds.none).set cl ((j : Int)))[d2]? = t.table_indices[d2]? := by
    intro d2 h1 h2
    rw [getElem?_set_ne (fun h => h2 h.symm), getElem?_set_ne (fun h => h1 h.symm)]
  by_cases hdc : d = c
  · subst hdc
    rw [if_pos rfl]
    exact cellVal_of_entry_none hT2c
  · rw [if_neg hdc]
    by_cases hdcl : d = cl
    · subst hdcl
      rw [cellVal_of_entry hT2cl, cellVal_of_entry hticl]
      show (swap_and_erase_vec t.cells j)[j]? = _
      rw [swap_and_erase_vec_getElem? _ _ _ (by omega), if_pos rfl]
    · by_cases hd : d < t.rows * t.cols
      · rcases hInv.lookup_shape d hd with hn | ⟨j2, hj2, hs⟩
        · rw [cellVal_of_entry_none (show _ = some ds.none from (hT2o d hdc hdcl).trans hn),
            cellVal_of_entry_none hn]
        · have hj2j : j2 ≠ j := fun he => hdc (huniq_j d hd (he ▸ hs))
          have hj2l : j2 ≠ t.cells.length - 1 := fun he => hdcl (huniq_last d hd (he ▸ hs))
          rw [cellVal_of_entry (show _ = some ((j2 : Int)) from (hT2o d hdc hdcl).trans hs),
            cellVal_of_entry hs]
          show (swap_and_erase_vec t.cells j)[j2]? = t.cells[j2]?
          rw [swap_and_erase_vec_getElem? _ _ _ (by omega), if_neg hj2j]
      · have hge : t.table_indices.length ≤ d := by rw [hInv.len_ti]; omega
        rw [cellVal_of_len_le (by simp only [List.length_set]; simpa using hge),
          cellVal_of_len_le hge]

/-! ## Workhorse lemmas: in-rectangle mutation, and invariant transport -/

theorem cellVal_isSome_iff {t : table α} (hInv : Inv t) {c : Nat}
    (hc : c < t.rows * t.cols) :
    (cellVal t c).isSome ↔
      ∃ j : Nat, j < t.cells.length ∧ t.table_indices[c]? = some ((j : Int)) := by
  rcases hInv.lookup_shape c hc with hn | ⟨j, hj, hs⟩
  · rw [cellVal_of_entry_none hn]
    constructor
    · intro h
      simp at h
    · rintro ⟨j, _, he⟩
      rw [hn] at he
      exact absurd (Option.some.inj he) (none_ne_natCast j)
  · rw [cellVal_of_entry hs]
    constructor
    · intro _
      exact ⟨j, hj, hs⟩
    · intro _
      exact getElem?_isSome_iff.mpr hj

theorem set_ok_of_in_rect {t : table α} (hInv : Inv t) {row col : Nat} (v : α)
    (hr : row < t.rows) (hc : col < t.cols) :
    ∃ t', t.set (Int.ofNat row) (Int.ofNat col) v = .ok t' ∧ Inv t' ∧
      t'.rows = t.rows ∧ t'.cols = t.cols ∧
      t'.cells.length ≤ t.cells.length + 1 ∧
      (∀ d : Nat, cellVal t' d = if d = row * t.cols + col then some v else cellVal t d) := by
  have hflat : row * t.cols + col < t.rows * t.cols := flat_lt t hr hc
  have hfi : t.get_table_index (Int.ofNat row) (Int.ofNat col) =
      Int.ofNat (row * t.cols + col) := gti_in_rect t hInv.small hr hc
  have h0 : 0 ≤ t.get_table_index (Int.ofNat row) (Int.ofNat col) := by
    rw [hfi]
    exact Int.natCast_nonneg _
  have htoNat : (t.get_table_index (Int.ofNat row) (Int.ofNat col)).toNat =
      row * t.cols + col := by
    rw [hfi]
    rfl
  have hlt : (t.get_table_index (Int.ofNat row) (Int.ofNat col)).toNat < t.rows * t.cols := by
    rw [htoNat]
    exact hflat
  rcases hInv.lookup_shape _ hlt with hn | ⟨j, hj, hs⟩
  · have heq := set_empty_cell hInv v h0 hlt hn
    rw [htoNat] at heq hn
    refine ⟨_, heq, Inv_append hInv hflat hn v, rfl, rfl, ?_, cellVal_append hInv hflat v⟩
    simp
  · have heq := set_populated_cell hInv v h0 hs hj
    have hs2 : t.table_indices[row * t.cols + col]? = some ((j : Int)) := by
      rw [← htoNat]
      exact hs
    refine ⟨_, heq, Inv_modify hInv j v, rfl, rfl, by simp, ?_⟩
    exact cellVal_modify hInv hflat hs2 hj v

theorem erase_ok_of_populated {t : table α} (hInv : Inv t) {row col : Nat}
    (hr : row < t.rows) (hc : col < t.cols)
    (hpop : (cellVal t (row * t.cols + col)).isSome) :
    ∃ t', t.erase (Int.ofNat row) (Int.ofNat col) = .ok t' ∧ Inv t' ∧
      t'.rows = t.rows ∧ t'.cols = t.cols ∧
      t'.cells.length + 1 = t.cells.length ∧
      (∀ d : Nat, cellVal t' d =
        if d = row * t.cols + col then Option.none else cellVal t d) := by
  have hflat : row * t.cols + col < t.rows * t.cols := flat_lt t hr hc
  have hfi : t.get_table_index (Int.ofNat row) (Int.ofNat col) =
      Int.ofNat (row * t.cols + col) := gti_in_rect t hInv.small hr hc
  have h0 : 0 ≤ t.get_table_index (Int.ofNat row) (Int.ofNat col) := by
    rw [hfi]
    exact Int.natCast_nonneg _
  have htoNat : (t.get_table_index (Int.ofNat row) (Int.ofNat col)).toNat =
      row * t.cols + col := by
    rw [hfi]
    rfl
  obtain ⟨j, hj, hs⟩ := (cellVal_isSome_iff hInv hflat).mp hpop
  have hs2 : t.table_indices[(t.get_table_index (Int.ofNat row) (Int.ofNat col)).toNat]? =
      some ((j : Int)) := by
    rw [htoNat]
    exact hs
  have hcne : t.cells ≠ [] := List.length_pos.mp (by omega)
  by_cases hcase : j + 1 = t.cells.length
  · have heq := erase_last_slot hInv h0 hs2 hcase
    rw [htoNat] at heq
    refine ⟨_, heq, Inv_erase_last hInv hflat hs hcase, rfl, rfl, ?_,
      cellVal_erase_last hInv hflat hs hcase⟩
    show (swap_and_erase_vec t.cells j).length + 1 = t.cells.length
    rw [swap_and_erase_vec_length _ _ hcne]
    omega
  · have hjlt : j + 1 < t.cells.length := by omega
    have hlen2 : t.cells_indices.length = t.cells.length := hInv.len_eq.symm
    obtain ⟨cl, hcl_e, hcl_lt⟩ := hInv.back_lt (t.cells.length - 1) (by omega)
    have heq := erase_swap_slot hInv h0 hs2 hjlt hcl_e hcl_lt
    rw [htoNat] at heq
    refine ⟨_, heq, Inv_erase_swap hInv hflat hs hjlt hcl_e hcl_lt, rfl, rfl, ?_,
      cellVal_erase_swap hInv hflat hs hjlt hcl_e hcl_lt⟩
    show (swap_and_erase_vec t.cells j).length + 1 = t.cells.length
    rw [swap_and_erase_vec_length _ _ hcne]
    omega

theorem inv_of_set_ok {t t' : table α} (hInv : Inv t) {row col : index} {v : α}
    (h : t.set row col v = .ok t') : Inv t' := by
  by_cases hoob : flat_oob t row col
  · rw [set_oob v hoob] at h
    simp at h
  · unfold flat_oob at hoob
    rw [not_not] at hoob
    have hlt2 : (t.get_table_index row col).toNat < t.rows * t.cols := by
      rw [← hInv.len_ti]
      exact hoob.2
    rcases hInv.lookup_shape _ hlt2 with hn | ⟨j, hj, hs⟩
    · rw [set_empty_cell hInv v hoob.1 hlt2 hn] at h
      injection h with h2
      subst h2
      exact Inv_append hInv hlt2 hn v
    · rw [set_populated_cell hInv v hoob.1 hs hj] at h
      injection h with h2
      subst h2
      exact Inv_modify hInv j v

theorem inv_of_emplace_ok {t t' : table α} (hInv : Inv t) {row col : index} {v : α}
    (h : t.emplace row col v = .ok t') : Inv t' := by
  rw [emplace_eq_set] at h
  exact inv_of_set_ok hInv h

theorem inv_of_erase_ok {t t' : table α} (hInv : Inv t) {row col : index}
    (h : t.erase row col = .ok t') : Inv t' := by
  by_cases hoob : flat_oob t row col
  · rw [erase_oob hoob] at h
    simp at h
  · unfold flat_oob at hoob
    rw [not_not] at hoob
    have hlt2 : (t.get_table_index row col).toNat < t.rows * t.cols := by
      rw [← hInv.len_ti]
      exact hoob.2
    rcases hInv.lookup_shape _ hlt2 with hn | ⟨j, hj, hs⟩
    · rw [erase_empty_cell hoob.1 hn] at h
      simp at h
    · by_cases hcase : j + 1 = t.cells.length
      · rw [erase_last_slot hInv hoob.1 hs hcase] at h
        injection h with h2
        subst h2
        exact Inv_erase_last hInv hlt2 hs hcase
      · have hjlt : j + 1 < t.cells.length := by omega
        have hlen2 : t.cells_indices.length = t.cells.length := hInv.len_eq.symm
        obtain ⟨cl, hcl_e, hcl_lt⟩ := hInv.back_lt (t.cells.length - 1) (by omega)
        rw [erase_swap_slot hInv hoob.1 hs hjlt hcl_e hcl_lt] at h
        injection h with h2
        subst h2
        exact Inv_erase_swap hInv hlt2 hs hjlt hcl_e hcl_lt

/-! ## Counting the populated cells -/

theorem card_populated {t : table α} (hInv : Inv t) :
    ((Finset.range (t.rows * t.cols)).filter fun c => (cellVal t c).isSome).card
      = t.cells.length := by
  rw [← Finset.card_range t.cells.length]
  apply Finset.card_bij' (fun c _ => ((t.table_indices[c]?).getD ds.none).toNat)
    (fun j _ => ((t.cells_indices[j]?).getD ds.none).toNat)
  · intro c hcm
    rw [Finset.mem_filter, Finset.mem_range] at hcm
    obtain ⟨j, hj, hs⟩ := (cellVal_isSome_iff hInv hcm.1).mp hcm.2
    rw [Finset.mem_range, hs]
    simpa using hj
  · intro j hjm
    rw [Finset.mem_range] at hjm
    have hjci : j < t.cells_indices.length := by rw [← hInv.len_eq]; exact hjm
    obtain ⟨c2, hc2, hlt2⟩ := hInv.back_lt j hjci
    rw [Finset.mem_filter, Finset.mem_range, hc2]
    have hc2n : ((some ((c2 : Int))).getD ds.none).toNat = c2 := by simp
    rw [hc2n]
    refine ⟨hlt2, ?_⟩
    rw [cellVal_isSome_iff hInv hlt2]
    exact ⟨j, hjm, (hInv.link c2 j hlt2 hjm).mpr hc2⟩
  · intro c hcm
    rw [Finset.mem_filter, Finset.mem_range] at hcm
    obtain ⟨j, hj, hs⟩ := (cellVal_isSome_iff hInv hcm.1).mp hcm.2
    rw [hs]
    have hback := (hInv.link c j hcm.1 hj).mp hs
    simp only [Option.getD_some, Int.toNat_natCast]
    rw [hback]
    simp
  · intro j hjm
    rw [Finset.mem_range] at hjm
    have hjci : j < t.cells_indices.length := by rw [← hInv.len_eq]; exact hjm
    obtain ⟨c2, hc2, hlt2⟩ := hInv.back_lt j hjci
    rw [hc2]
    have hti := (hInv.link c2 j hlt2 hjm).mpr hc2
    simp only [Option.getD_some, Int.toNat_natCast]
    rw [hti]
    simp

theorem card_pairs {t : table α} (hInv : Inv t) :
    (((Finset.range t.rows) ×ˢ (Finset.range t.cols)).filter
      fun (p : Nat × Nat) =>
        t.contains (Int.ofNat p.1) (Int.ofNat p.2) = Except.ok true).card
      = t.cells.length := by
  rw [← card_populated hInv]
  have hcontains : ∀ row col : Nat, row < t.rows → col < t.cols →
      (t.contains (Int.ofNat row) (Int.ofNat col) = .ok true ↔
        (cellVal t (row * t.cols + col)).isSome) := by
    intro row col hr hc
    have hfi := gti_in_rect t hInv.small hr hc
    have h0 : 0 ≤ t.get_table_index (Int.ofNat row) (Int.ofNat col) := by
      rw [hfi]
      exact Int.natCast_nonneg _
    have htoNat : (t.get_table_index (Int.ofNat row) (Int.ofNat col)).toNat =
        row * t.cols + col := by
      rw [hfi]
      rfl
    have hlt : (t.get_table_index (Int.ofNat row) (Int.ofNat col)).toNat <
        t.rows * t.cols := by
      rw [htoNat]
      exact flat_lt t hr hc
    rw [contains_in_range hInv h0 hlt, htoNat]
    constructor
    · intro h
      injection h
    · intro h
      rw [h]
  apply Finset.card_bij' (fun (p : Nat × Nat) _ => p.1 * t.cols + p.2)
    (fun (c : Nat) _ => (c / t.cols, c % t.cols))
  · intro p hpm
    rw [Finset.mem_filter, Finset.mem_product, Finset.mem_range, Finset.mem_range] at hpm
    obtain ⟨⟨hr, hc⟩, hcont⟩ := hpm
    rw [Finset.mem_filter, Finset.mem_range]
    exact ⟨flat_lt t hr hc, (hcontains p.1 p.2 hr hc).mp hcont⟩
  · intro c hcm
    rw [Finset.mem_filter, Finset.mem_range] at hcm
    obtain ⟨hcr, hsome⟩ := hcm
    have hcols : 0 < t.cols := by
      rcases Nat.eq_zero_or_pos t.cols with h | h
      · rw [h] at hcr
        simp at hcr
      · exact h
    have hr : c / t.cols < t.rows := by
      rw [Nat.div_lt_iff_lt_mul hcols]
      omega
    have hc2 : c % t.cols < t.cols := Nat.mod_lt _ hcols
    rw [Finset.mem_filter, Finset.mem_product, Finset.mem_range, Finset.mem_range]
    refine ⟨⟨hr, hc2⟩, ?_⟩
    rw [hcontains _ _ hr hc2]
    have henc : c / t.cols * t.cols + c % t.cols = c := by
      have h3 := Nat.div_add_mod c t.cols
      rw [Nat.mul_comm t.cols (c / t.cols)] at h3
      exact h3
    rw [henc]
    exact hsome
  · intro p hpm
    rw [Finset.mem_filter, Finset.mem_product, Finset.mem_range, Finset.mem_range] at hpm
    obtain ⟨⟨hr, hc⟩, _⟩ := hpm
    have hcols : 0 < t.cols := Nat.lt_of_le_of_lt (Nat.zero_le p.2) hc
    have h1 : (p.1 * t.cols + p.2) / t.cols = p.1 := by
      rw [Nat.add_comm (p.1 * t.cols) p.2, Nat.add_mul_div_right p.2 p.1 hcols,
        Nat.div_eq_of_lt hc, Nat.zero_add]
    have h2 : (p.1 * t.cols + p.2) % t.cols = p.2 := by
      rw [Nat.add_comm (p.1 * t.cols) p.2, Nat.add_mul_mod_self_right,
        Nat.mod_eq_of_lt hc]
    rw [h1, h2]
  · intro c hcm
    rw [Finset.mem_filter, Finset.mem_range] at hcm
    have hcols : 0 < t.cols := by
      rcases Nat.eq_zero_or_pos t.cols with h | h
      · rw [h] at hcm
        simp at hcm
      · exact h
    show c / t.cols * t.cols + c % t.cols = c
    have h3 := Nat.div_add_mod c t.cols
    rw [Nat.mul_comm t.cols (c / t.cols)] at h3
    exact h3

/-! ## `set_size`: the rebuild loop -/

theorem encode_inj {co r1 c1 r2 c2 : Nat} (h1 : c1 < co) (h2 : c2 < co)
    (he : r1 * co + c1 = r2 * co + c2) : r1 = r2 ∧ c1 = c2 := by
  have hco : 0 < co := Nat.lt_of_le_of_lt (Nat.zero_le c1) h1
  have hd1 : (r1 * co + c1) / co = r1 := by
    rw [Nat.add_comm (r1 * co) c1, Nat.add_mul_div_right c1 r1 hco,
      Nat.div_eq_of_lt h1, Nat.zero_add]
  have hd2 : (r2 * co + c2) / co = r2 := by
    rw [Nat.add_comm (r2 * co) c2, Nat.add_mul_div_right c2 r2 hco,
      Nat.div_eq_of_lt h2, Nat.zero_add]
  have hm1 : (r1 * co + c1) % co = c1 := by
    rw [Nat.add_comm (r1 * co) c1, Nat.add_mul_mod_self_right, Nat.mod_eq_of_lt h1]
  have hm2 : (r2 * co + c2) % co = c2 := by
    rw [Nat.add_comm (r2 * co) c2, Nat.add_mul_mod_self_right, Nat.mod_eq_of_lt h2]
  constructor
  · rw [← hd1, ← hd2, he]
  · rw [← hm1, ← hm2, he]

theorem cellVal_mk_table (r c : Nat) (d : Nat) :
    cellVal (table.mk_table (α := α) r c) d = Option.none := by
  by_cases hd : d < (r * c) % 4294967296
  · apply cellVal_of_entry_none
    show (List.replicate ((r * c) % 4294967296) ds.none)[d]? = some ds.none
    rw [List.getElem?_replicate, if_pos hd]
  · apply cellVal_of_len_le
    show (List.replicate ((r * c) % 4294967296) ds.none).length ≤ d
    rw [List.length_replicate]
    omega

theorem set_size_go_spec {t : table α} (hInv : Inv t) {r c : Nat}
    (hrc : r * c < 2147483648) :
    ∀ fuel i (acc : table α), i + fuel = t.cells_indices.length →
      Inv acc → acc.rows = r → acc.cols = c → acc.cells.length ≤ i →
      (∀ row col : Nat, row < r → col < c →
        cellVal acc (row * c + col) =
          if row < t.rows ∧ col < t.cols ∧ (∃ j2, j2 < i ∧
              t.cells_indices[j2]? = some ((row * t.cols + col : Nat) : Int))
          then cellVal t (row * t.cols + col) else Option.none) →
      ∃ t', table.set_size_go t r c i fuel acc = .ok t' ∧ Inv t' ∧
        t'.rows = r ∧ t'.cols = c ∧
        t'.cells.length ≤ t.cells_indices.length ∧
        (∀ row col : Nat, row < r → col < c →
          cellVal t' (row * c + col) =
            if row < t.rows ∧ col < t.cols ∧ (∃ j2, j2 < t.cells_indices.length ∧
                t.cells_indices[j2]? = some ((row * t.cols + col : Nat) : Int))
            then cellVal t (row * t.cols + col) else Option.none) := by
  intro fuel
  induction fuel with
  | zero =>
    intro i acc hif hIa har hac hcount hchar
    have hi : ¬ (i < t.cells_indices.length) := by omega
    refine ⟨acc, ?_, hIa, har, hac, by omega, ?_⟩
    · show table.set_size_go t r c i 0 acc = .ok acc
      unfold table.set_size_go
      rw [if_neg hi]
    · intro row col hr hc
      rw [hchar row col hr hc]
      have hieq : i = t.cells_indices.length := by omega
      rw [hieq]
  | succ fuel ih =>
    intro i acc hif hIa har hac hcount hchar
    have hi : i < t.cells_indices.length := by omega
    have hicells : i < t.cells.length := by rw [hInv.len_eq]; exact hi
    obtain ⟨datum, hdat⟩ := Option.isSome_iff_exists.mp (getElem?_isSome_iff.mpr hicells)
    obtain ⟨cid, hcid, hcid_lt⟩ := hInv.back_lt i hi
    have hget : t.cells_indices.get ⟨i, hi⟩ = Int.ofNat cid := by
      have h1 : t.cells_indices[i]? = some (t.cells_indices.get ⟨i, hi⟩) :=
        List.getElem?_eq_getElem hi
      rw [hcid] at h1
      exact (Option.some.inj h1).symm
    have hcols : ¬ (t.cols = 0) := by
      intro hz
      rw [hz, Nat.mul_zero] at hcid_lt
      exact Nat.not_lt_zero _ hcid_lt
    have hcolpos : 0 < t.cols := Nat.pos_of_ne_zero hcols
    have hrowpos : 0 < t.rows := by
      rcases Nat.eq_zero_or_pos t.rows with hz | h
      · rw [hz, Nat.zero_mul] at hcid_lt
        exact absurd hcid_lt (Nat.not_lt_zero _)
      · exact h
    have hcid32 : cid < 4294967296 :=
      lt_trans (lt_trans hcid_lt hInv.small) (by norm_num)
    have horow : cid / t.cols < t.rows := (Nat.div_lt_iff_lt_mul hcolpos).mpr hcid_lt
    have hocol : cid % t.cols < t.cols := Nat.mod_lt _ hcolpos
    have henc : (cid / t.cols) * t.cols + cid % t.cols = cid := by
      have h3 := Nat.div_add_mod cid t.cols
      rw [Nat.mul_comm t.cols (cid / t.cols)] at h3
      exact h3
    have hrow31 : cid / t.cols < 2147483648 :=
      lt_of_lt_of_le horow (le_trans (Nat.le_mul_of_pos_right _ hcolpos)
        (le_of_lt hInv.small))
    have hcol31 : cid % t.cols < 2147483648 :=
      lt_of_lt_of_le hocol (le_trans (Nat.le_mul_of_pos_left _ hrowpos)
        (le_of_lt hInv.small))
    have hval_t : cellVal t cid = some datum := by
      have hti := (hInv.link cid i hcid_lt hicells).mpr hcid
      rw [cellVal_of_entry hti]
      exact hdat
    by_cases hkept : cid / t.cols < r ∧ cid % t.cols < c
    · have hr2 : cid / t.cols < acc.rows := by rw [har]; exact hkept.1
      have hc2 : cid % t.cols < acc.cols := by rw [hac]; exact hkept.2
      obtain ⟨acc2, hseteq, hIa2, har2, hac2, hcnt2, hupd⟩ :=
        set_ok_of_in_rect hIa datum hr2 hc2
      have hstep : table.set_size_step t r c i hi acc = .ok acc2 := by
        unfold table.set_size_step
        rw [vecAt_ofNat, hdat]
        simp only [hget, toUInt32n_ofNat hcid32]
        rw [if_neg hcols, if_pos hkept, toInt32_ofNat hrow31, toInt32_ofNat hcol31, hseteq]
      rw [hac] at hupd
      have hpre : ∀ row col : Nat, row < r → col < c →
          cellVal acc2 (row * c + col) =
            if row < t.rows ∧ col < t.cols ∧ (∃ j2, j2 < i + 1 ∧
                t.cells_indices[j2]? = some ((row * t.cols + col : Nat) : Int))
            then cellVal t (row * t.cols + col) else Option.none := by
        intro row col hr hc
        rw [hupd (row * c + col)]
        by_cases hsame : row = cid / t.cols ∧ col = cid % t.cols
        · obtain ⟨hsr, hsc⟩ := hsame
          subst hsr
          subst hsc
          rw [if_pos rfl, if_pos ⟨horow, hocol, ⟨i, by omega, by rw [henc]; exact hcid⟩⟩,
            henc, hval_t]
        · have hne2 : ¬ (row * c + col = (cid / t.cols) * c + cid % t.cols) := by
            intro he
            exact hsame (encode_inj hc hkept.2 he)
          rw [if_neg hne2, hchar row col hr hc]
          by_cases hrect : row < t.rows ∧ col < t.cols
          · have hiff : (∃ j2, j2 < i ∧
                t.cells_indices[j2]? = some ((row * t.cols + col : Nat) : Int)) ↔
                (∃ j2, j2 < i + 1 ∧
                  t.cells_indices[j2]? = some ((row * t.cols + col : Nat) : Int)) := by
              constructor
              · rintro ⟨j2, hj2, he⟩
                exact ⟨j2, by omega, he⟩
              · rintro ⟨j2, hj2, he⟩
                by_cases hj2i : j2 = i
                · subst hj2i
                  rw [hcid] at he
                  exfalso
                  have hee : row * t.cols + col = cid := by
                    have h4 := Option.some.inj he
                    exact_mod_cast h4.symm
                  rw [← henc] at hee
                  exact hsame (encode_inj hrect.2 hocol hee)
                · exact ⟨j2, by omega, he⟩
            by_cases hex : ∃ j2, j2 < i ∧
                t.cells_indices[j2]? = some ((row * t.cols + col : Nat) : Int)
            · rw [if_pos ⟨hrect.1, hrect.2, hex⟩, if_pos ⟨hrect.1, hrect.2, hiff.mp hex⟩]
            · rw [if_neg (fun hcon => hex hcon.2.2),
                if_neg (fun hcon => hex (hiff.mpr hcon.2.2))]
          · rw [if_neg (fun hcon => hrect ⟨hcon.1, hcon.2.1⟩),
              if_neg (fun hcon => hrect ⟨hcon.1, hcon.2.1⟩)]
      obtain ⟨t', hgo, hIt, hrt, hct, hcnt, hcharf⟩ :=
        ih (i + 1) acc2 (by omega) hIa2 (har2.trans har) (hac2.trans hac)
          (by omega) hpre
      refine ⟨t', ?_, hIt, hrt, hct, hcnt, hcharf⟩
      show table.set_size_go t r c i (fuel + 1) acc = .ok t'
      conv_lhs => unfold table.set_size_go
      rw [dif_pos hi, hstep]
      exact hgo
    · have hstep : table.set_size_step t r c i hi acc = .ok acc := by
        unfold table.set_size_step
        rw [vecAt_ofNat, hdat]
        simp only [hget, toUInt32n_ofNat hcid32]
        rw [if_neg hcols, if_neg hkept]
      have hpre : ∀ row col : Nat, row < r → col < c →
          cellVal acc (row * c + col) =
            if row < t.rows ∧ col < t.cols ∧ (∃ j2, j2 < i + 1 ∧
                t.cells_indices[j2]? = some ((row * t.cols + col : Nat) : Int))
            then cellVal t (row * t.cols + col) else Option.none := by
        intro row col hr hc
        rw [hchar row col hr hc]
        by_cases hrect : row < t.rows ∧ col < t.cols
        · have hiff : (∃ j2, j2 < i ∧
              t.cells_indices[j2]? = some ((row * t.cols + col : Nat) : Int)) ↔
              (∃ j2, j2 < i + 1 ∧
                t.cells_indices[j2]? = some ((row * t.cols + col : Nat) : Int)) := by
            constructor
            · rintro ⟨j2, hj2, he⟩
              exact ⟨j2, by omega, he⟩
            · rintro ⟨j2, hj2, he⟩
              by_cases hj2i : j2 = i
              · subst hj2i
                rw [hcid] at he
                exfalso
                have hee : row * t.cols + col = cid := by
                  have h4 := Option.some.inj he
                  exact_mod_cast h4.symm
                rw [← henc] at hee
                obtain ⟨her, hec⟩ := encode_inj hrect.2 hocol hee
                exact hkept ⟨her ▸ hr, hec ▸ hc⟩
              · exact ⟨j2, by omega, he⟩
          by_cases hex : ∃ j2, j2 < i ∧
              t.cells_indices[j2]? = some ((row * t.cols + col : Nat) : Int)
          · rw [if_pos ⟨hrect.1, hrect.2, hex⟩, if_pos ⟨hrect.1, hrect.2, hiff.mp hex⟩]
          · rw [if_neg (fun hcon => hex hcon.2.2),
              if_neg (fun hcon => hex (hiff.mpr hcon.2.2))]
        · rw [if_neg (fun hcon => hrect ⟨hcon.1, hcon.2.1⟩),
            if_neg (fun hcon => hrect ⟨hcon.1, hcon.2.1⟩)]
      obtain ⟨t', hgo, hIt, hrt, hct, hcnt, hcharf⟩ :=
        ih (i + 1) acc (by omega) hIa har hac (by omega) hpre
      refine ⟨t', ?_, hIt, hrt, hct, hcnt, hcharf⟩
      show table.set_size_go t r c i (fuel + 1) acc = .ok t'
      conv_lhs => unfold table.set_size_go
      rw [dif_pos hi, hstep]
      exact hgo

theorem set_size_spec {t : table α} (hInv : Inv t) {r c : Nat}
    (hrc : r * c < 2147483648) :
    ∃ t', t.set_size r c = .ok t' ∧ Inv t' ∧ t'.rows = r ∧ t'.cols = c ∧
      t'.cells.length ≤ t.cells.length ∧
      (∀ row col : Nat, row < r → col < c →
        cellVal t' (row * c + col) =
          if row < t.rows ∧ col < t.cols then cellVal t (row * t.cols + col)
          else Option.none) := by
  have hmk : Inv (table.mk_table (α := α) r c) := Inv_mk_table r c hrc
  have hchar0 : ∀ row col : Nat, row < r → col < c →
      cellVal (table.mk_table (α := α) r c) (row * c + col) =
        if row < t.rows ∧ col < t.cols ∧ (∃ j2, j2 < 0 ∧
            t.cells_indices[j2]? = some ((row * t.cols + col : Nat) : Int))
        then cellVal t (row * t.cols + col) else Option.none := by
    intro row col hr hc
    rw [cellVal_mk_table, if_neg]
    rintro ⟨_, _, j2, hj2, _⟩
    omega
  obtain ⟨t', hgo, hIt, hrt, hct, hcnt, hcharf⟩ :=
    set_size_go_spec hInv hrc t.cells_indices.length 0 (table.mk_table r c)
      (by omega) hmk rfl rfl (by simp [table.mk_table]) hchar0
  refine ⟨t', ?_, hIt, hrt, hct, ?_, ?_⟩
  · show t.set_size r c = .ok t'
    unfold table.set_size
    exact hgo
  · rw [← hInv.len_eq] at hcnt
    exact hcnt
  · intro row col hr hc
    rw [hcharf row col hr hc]
    by_cases hrect : row < t.rows ∧ col < t.cols
    · by_cases hex : ∃ j2, j2 < t.cells_indices.length ∧
          t.cells_indices[j2]? = some ((row * t.cols + col : Nat) : Int)
      · rw [if_pos ⟨hrect.1, hrect.2, hex⟩, if_pos hrect]
      · rw [if_neg (fun hcon => hex hcon.2.2), if_pos hrect]
        have hflat : row * t.cols + col < t.rows * t.cols := flat_lt t hrect.1 hrect.2
        rcases hInv.lookup_shape _ hflat with hn | ⟨j, hj, hs⟩
        · rw [cellVal_of_entry_none hn]
        · exfalso
          apply hex
          have hlen := hInv.len_eq
          exact ⟨j, by omega, (hInv.link _ j hflat hj).mp hs⟩
    · rw [if_neg (fun hcon => hrect ⟨hcon.1, hcon.2.1⟩), if_neg hrect]

theorem inv_of_set_size_ok {t t' : table α} (hInv : Inv t) {r c : Nat}
    (hrc : r * c < 2147483648) (h : t.set_size r c = .ok t') : Inv t' := by
  obtain ⟨t2, hgo, hIt, _⟩ := set_size_spec hInv hrc
  rw [h] at hgo
  injection hgo with h2
  rw [h2]
  exact hIt

theorem reachable_inv {t : table α} (h : Reachable t) : Inv t := by
  induction h with
  | fresh rows cols hsmall => exact Inv_mk_table rows cols hsmall
  | set_step t t2 row col v _ hstep ih => exact inv_of_set_ok ih hstep
  | emplace_step t t2 row col v _ hstep ih => exact inv_of_emplace_ok ih hstep
  | erase_step t t2 row col _ hstep ih => exact inv_of_erase_ok ih hstep
  | set_size_step t t2 r c _ hsmall hstep ih => exact inv_of_set_size_ok ih hsmall hstep

/-! ## Error classification for each operation -/

theorem contains_ne_notFound (u : table α) (row col : index) :
    u.contains row col ≠ .error .notFound := by
  unfold table.contains
  rcases hv : vecAt u.table_indices (u.get_table_index row col) with _ | i
  · simp
  · simp

theorem at_else_ne_notFound (u : table α) (row col : index) (fb : α) :
    u.at_else row col fb ≠ .error .notFound := by
  unfold table.at_else
  rcases hv : vecAt u.table_indices (u.get_table_index row col) with _ | i
  · simp
  · by_cases hne : i = ds.none
    · simp [hne]
    · rcases hv2 : vecAt u.cells i with _ | w
      · simp [hne, hv2]
      · simp [hne, hv2]

theorem get_ne_notFound (u : table α) (row col : index) :
    u.get row col ≠ .error .notFound := by
  unfold table.get
  rcases hv : vecAt u.table_indices (u.get_table_index row col) with _ | i
  · simp
  · by_cases hne : i = ds.none
    · simp [hne]
    · rcases hv2 : vecAt u.cells i with _ | w
      · simp [hne, hv2]
      · simp [hne, hv2]

theorem set_err_classify (u : table α) (row col : index) (v : α) (e : Err) (s : table α)
    (h : u.set row col v = .err e s) : e = .outOfRange ∧ s = u := by
  unfold table.set at h
  rcases hv : vecAt u.table_indices (u.get_table_index row col) with _ | i
  · rw [hv] at h
    simp only [MRes.err.injEq] at h
    exact ⟨h.1.symm, h.2.symm⟩
  · rw [hv] at h
    by_cases hne : i = ds.none
    · simp [hne] at h
    · rcases hv2 : vecAt u.cells i with _ | w
      · simp only [hne, ne_eq, not_false_iff, if_true, hv2, MRes.err.injEq] at h
        exact ⟨h.1.symm, h.2.symm⟩
      · simp [hne, hv2] at h

theorem emplace_err_classify (u : table α) (row col : index) (v : α) (e : Err) (s : table α)
    (h : u.emplace row col v = .err e s) : e = .outOfRange ∧ s = u := by
  rw [emplace_eq_set] at h
  exact set_err_classify u row col v e s h

theorem erase_err_classify {u : table α} (hInv : Inv u) {row col : index} {e : Err}
    {s : table α} (h : u.erase row col = .err e s) : e = .outOfRange ∧ s = u := by
  by_cases hoob : flat_oob u row col
  · rw [erase_oob hoob] at h
    simp only [MRes.err.injEq] at h
    exact ⟨h.1.symm, h.2.symm⟩
  · unfold flat_oob at hoob
    rw [not_not] at hoob
    have hlt2 : (u.get_table_index row col).toNat < u.rows * u.cols := by
      rw [← hInv.len_ti]
      exact hoob.2
    rcases hInv.lookup_shape _ hlt2 with hn | ⟨j, hj, hs⟩
    · rw [erase_empty_cell hoob.1 hn] at h
      simp at h
    · by_cases hcase : j + 1 = u.cells.length
      · rw [erase_last_slot hInv hoob.1 hs hcase] at h
        simp at h
      · have hjlt : j + 1 < u.cells.length := by omega
        have hlen2 : u.cells_indices.length = u.cells.length := hInv.len_eq.symm
        obtain ⟨cl, hcl_e, hcl_lt⟩ := hInv.back_lt (u.cells.length - 1) (by omega)
        rw [erase_swap_slot hInv hoob.1 hs hjlt hcl_e hcl_lt] at h
        simp at h

theorem set_size_step_err (t : table α) (r c i : Nat) (hi : i < t.cells_indices.length)
    (acc : table α) (e : Err) (s : table α)
    (h : table.set_size_step t r c i hi acc = .err e s) : s = t := by
  unfold table.set_size_step at h
  split at h
  · simp only [MRes.err.injEq] at h
    exact h.2.symm
  · split at h
    · simp at h
    · split at h
      · split at h
        · simp at h
        · simp only [MRes.err.injEq] at h
          exact h.2.symm
        · simp at h
      · simp at h

theorem set_size_go_err (t : table α) (r c : Nat) :
    ∀ fuel i (acc : table α) (e : Err) (s : table α),
      table.set_size_go t r c i fuel acc = .err e s → s = t := by
  intro fuel
  induction fuel with
  | zero =>
    intro i acc e s h
    unfold table.set_size_go at h
    by_cases hi : i < t.cells_indices.length
    · rw [if_pos hi] at h
      simp at h
    · rw [if_neg hi] at h
      simp at h
  | succ fuel ih =>
    intro i acc e s h
    unfold table.set_size_go at h
    by_cases hi : i < t.cells_indices.length
    · rw [dif_pos hi] at h
      rcases hstep : table.set_size_step t r c i hi acc with acc2 | ⟨e2, s2⟩ | _
      · rw [hstep] at h
        exact ih (i + 1) acc2 e s h
      · rw [hstep] at h
        have h2 : (MRes.err e2 s2 : MRes α) = .err e s := h
        simp only [MRes.err.injEq] at h2
        rw [← h2.2]
        exact set_size_step_err t r c i hi acc e2 s2 hstep
      · rw [hstep] at h
        have h2 : (MRes.ub : MRes α) = .err e s := h
        simp at h2
    · rw [dif_neg hi] at h
      simp at h

theorem set_size_err (t : table α) (r c : Nat) (e : Err) (s : table α)
    (h : t.set_size r c = .err e s) : s = t := by
  unfold table.set_size at h
  exact set_size_go_err t r c t.cells_indices.length 0 _ e s h

/-! # The claims -/

/-- C1, counterexample: the claim says every coordinate pair outside
`[0,row_count) × [0,col_count)` makes every coordinate-taking operation
raise OutOfRange.  On a default 4×4 table the pair `(0, 5)` lies outside
the rectangle (`5 ≥ 4`), yet `contains(0,5)` returns `false` without any
error, `at(0,5)` fails with the NotFound condition (not OutOfRange), and
`set(0,5,99)` succeeds — silently populating the aliased cell `(1,1)`,
because the code only checks the flattened index `0*4+5 = 5 < 16`. -/
theorem C1_counterexample :
    ¬ ((5 : Int) < 4) ∧
    (table.mk_table 4 4 : table Int).contains 0 5 = Except.ok false ∧
    (table.mk_table 4 4 : table Int).at_ 0 5 = Except.error Err.notFound ∧
    ∃ t', (table.mk_table 4 4 : table Int).set 0 5 99 = MRes.ok t' ∧
      t'.contains 1 1 = Except.ok true := by
  refine ⟨by norm_num, by decide, by decide, ?_⟩
  refine ⟨_, rfl, by decide⟩

/-- C1 (amended): a coordinate-taking operation raises the OutOfRange
condition exactly when the flattened index `row * cols + column` (computed
with the C++ `int`/`unsigned` conversions) falls outside the lookup
array's bounds `[0, rows*cols)`; a coordinate pair outside the rectangle
whose flattened index is nevertheless in range aliases another cell and
raises nothing. -/
theorem C1_amended {α : Type} (t : table α) (hInv : Inv t) (row col : index) (v fb : α) :
    ((t.contains row col = .error .outOfRange) ↔ flat_oob t row col) ∧
    ((t.at_ row col = .error .outOfRange) ↔ flat_oob t row col) ∧
    ((t.at_else row col fb = .error .outOfRange) ↔ flat_oob t row col) ∧
    ((t.get row col = .error .outOfRange) ↔ flat_oob t row col) ∧
    ((∃ s, t.set row col v = .err .outOfRange s) ↔ flat_oob t row col) ∧
    ((∃ s, t.emplace row col v = .err .outOfRange s) ↔ flat_oob t row col) ∧
    ((∃ s, t.erase row col = .err .outOfRange s) ↔ flat_oob t row col) := by
  by_cases hoob : flat_oob t row col
  · exact ⟨iff_of_true (contains_oob hoob) hoob,
      iff_of_true (at_oob hoob) hoob,
      iff_of_true (at_else_oob fb hoob) hoob,
      iff_of_true (get_oob hoob) hoob,
      iff_of_true ⟨t, set_oob v hoob⟩ hoob,
      iff_of_true ⟨t, emplace_oob v hoob⟩ hoob,
      iff_of_true ⟨t, erase_oob hoob⟩ hoob⟩
  · have hnoob := hoob
    unfold flat_oob at hoob
    rw [not_not] at hoob
    obtain ⟨h0, hltl⟩ := hoob
    have hlt2 : (t.get_table_index row col).toNat < t.rows * t.cols := by
      rw [← hInv.len_ti]
      exact hltl
    refine ⟨iff_of_false ?_ hnoob, iff_of_false ?_ hnoob, iff_of_false ?_ hnoob,
      iff_of_false ?_ hnoob, iff_of_false ?_ hnoob, iff_of_false ?_ hnoob,
      iff_of_false ?_ hnoob⟩
    · rw [contains_in_range hInv h0 hlt2]
      simp
    · rw [at_in_range hInv h0 hlt2]
      rcases hcv : cellVal t (t.get_table_index row col).toNat with _ | w
      · simp
      · simp
    · rw [at_else_in_range hInv fb h0 hlt2]
      simp
    · rw [get_in_range hInv h0 hlt2]
      simp
    · rintro ⟨s, hs⟩
      rcases hInv.lookup_shape _ hlt2 with hn | ⟨j, hj, hsome⟩
      · rw [set_empty_cell hInv v h0 hlt2 hn] at hs
        simp at hs
      · rw [set_populated_cell hInv v h0 hsome hj] at hs
        simp at hs
    · rintro ⟨s, hs⟩
      rw [emplace_eq_set] at hs
      rcases hInv.lookup_shape _ hlt2 with hn | ⟨j, hj, hsome⟩
      · rw [set_empty_cell hInv v h0 hlt2 hn] at hs
        simp at hs
      · rw [set_populated_cell hInv v h0 hsome hj] at hs
        simp at hs
    · rintro ⟨s, hs⟩
      rcases hInv.lookup_shape _ hlt2 with hn | ⟨j, hj, hsome⟩
      · rw [erase_empty_cell h0 hn] at hs
        simp at hs
      · by_cases hcase : j + 1 = t.cells.length
        · rw [erase_last_slot hInv h0 hsome hcase] at hs
          simp at hs
        · have hjlt : j + 1 < t.cells.length := by omega
          have hlen2 : t.cells_indices.length = t.cells.length := hInv.len_eq.symm
          obtain ⟨cl, hcl_e, hcl_lt⟩ := hInv.back_lt (t.cells.length - 1) (by omega)
          rw [erase_swap_slot hInv h0 hsome hjlt hcl_e hcl_lt] at hs
          simp at hs

/-- C1 amended, witness: on a fresh 3×3 table the flattened index of
`(0, 17)` is out of range, so `contains` raises OutOfRange there. -/
theorem C1_amended_witness :
    (table.mk_table 3 3 : table Int).contains 0 17 = .error .outOfRange :=
  ((C1_amended (table.mk_table 3 3) (Inv_mk_table 3 3 (by norm_num)) 0 17 5 7).1).mpr
    (by decide)

/-- C2: the three-array invariant — the lookup array has length
`rows * cols`, the dense store and back-index run in lockstep, and
`lookup[c] = i` (with `i ≠ EMPTY`) iff `back_index[i] = c` — holds for
every freshly constructed table and is preserved by every successful
`set`, `emplace`, `erase` and `set_size`; in particular, for every
populated cell the lookup entry at `flatten(row, col)` is a valid
dense-store index whose back-index entry equals `flatten(row, col)`. -/
theorem C2_invariant {α : Type} :
    (∀ rows cols : Nat, rows * cols < 2147483648 →
      Inv (table.mk_table (α := α) rows cols)) ∧
    (∀ (t t' : table α) (row col : index) (v : α),
      Inv t → t.set row col v = .ok t' → Inv t') ∧
    (∀ (t t' : table α) (row col : index) (v : α),
      Inv t → t.emplace row col v = .ok t' → Inv t') ∧
    (∀ (t t' : table α) (row col : index),
      Inv t → t.erase row col = .ok t' → Inv t') ∧
    (∀ (t t' : table α) (r c : Nat),
      Inv t → r * c < 2147483648 → t.set_size r c = .ok t' → Inv t') ∧
    (∀ t : table α, Inv t → ∀ c j : Nat, c < t.rows * t.cols → j < t.cells.length →
      (t.table_indices[c]? = some ((j : Int)) ↔ t.cells_indices[j]? = some ((c : Int)))) ∧
    (∀ t : table α, Inv t → ∀ row col : Nat, row < t.rows → col < t.cols →
      ∀ i : index, t.table_indices[row * t.cols + col]? = some i → i ≠ ds.none →
        ∃ j : Nat, i = ((j : Int)) ∧ j < t.cells.length ∧
          t.cells_indices[j]? = some ((row * t.cols + col : Nat) : Int)) := by
  refine ⟨Inv_mk_table, fun t t' row col v hI h => inv_of_set_ok hI h,
    fun t t' row col v hI h => inv_of_emplace_ok hI h,
    fun t t' row col hI h => inv_of_erase_ok hI h,
    fun t t' r c hI hrc h => inv_of_set_size_ok hI hrc h,
    fun t hI => hI.link, ?_⟩
  intro t hI row col hr hc i hentry hne
  have hflat : row * t.cols + col < t.rows * t.cols := flat_lt t hr hc
  rcases hI.lookup_shape _ hflat with hn | ⟨j, hj, hs⟩
  · rw [hn] at hentry
    exact absurd (Option.some.inj hentry).symm hne
  · rw [hs] at hentry
    have hij : i = ((j : Int)) := (Option.some.inj hentry).symm
    exact ⟨j, hij, hj, (hI.link _ j hflat hj).mp hs⟩

/-- C2, witness: starting from a fresh 2×2 table, the invariant transports
across a concrete `set(0,0,5)` step. -/
theorem C2_invariant_witness :
    Inv ({ rows := 2, cols := 2, cells := [(5 : Int)], cells_indices := [0],
           table_indices := [0, ds.none, ds.none, ds.none] } : table Int) :=
  (C2_invariant).2.1 (table.mk_table 2 2) _ 0 0 5
    ((C2_invariant).1 2 2 (by norm_num)) (by decide)

/-- C3: in every state reachable from a freshly constructed table by
successful operations (in particular, after any sequence of in-bounds
`set`/`emplace`/`erase`), `count()` equals the number of coordinate pairs
in `[0,row_count) × [0,col_count)` on which `contains` returns `true`,
and equals the length of the dense value store. -/
theorem C3_count {α : Type} (t : table α) (h : Reachable t) :
    t.count = (((Finset.range t.rows) ×ˢ (Finset.range t.cols)).filter
      fun (p : Nat × Nat) =>
        t.contains (Int.ofNat p.1) (Int.ofNat p.2) = Except.ok true).card ∧
    t.count = t.cells.length :=
  ⟨(card_pairs (reachable_inv h)).symm, rfl⟩

/-- C3, witness: the count of a fresh 2×3 table is both the number of
`contains`-true pairs and the dense-store length. -/
theorem C3_count_witness :
    (table.mk_table 2 3 : table Int).count =
      (((Finset.range (table.mk_table 2 3 : table Int).rows) ×ˢ
        (Finset.range (table.mk_table 2 3 : table Int).cols)).filter
        fun (p : Nat × Nat) => (table.mk_table 2 3 : table Int).contains
          (Int.ofNat p.1) (Int.ofNat p.2) = Except.ok true).card ∧
    (table.mk_table 2 3 : table Int).count =
      (table.mk_table 2 3 : table Int).cells.length :=
  C3_count (α := Int) (table.mk_table 2 3) (Reachable.fresh (α := Int) 2 3 (by norm_num))

/-- C4: on an in-bounds, currently unpopulated cell, `at` fails with the
NotFound condition, which is a different condition from OutOfRange; and
NotFound is never raised by `get`, `at_else`, `contains`, `set` or
`emplace` (their only error condition is OutOfRange). -/
theorem C4_notFound {α : Type} (t : table α) (hInv : Inv t) :
    (∀ row col : Nat, row < t.rows → col < t.cols →
      cellVal t (row * t.cols + col) = Option.none →
        t.at_ (Int.ofNat row) (Int.ofNat col) = .error .notFound) ∧
    Err.notFound ≠ Err.outOfRange ∧
    (∀ (u : table α) (row col : index), u.contains row col ≠ .error .notFound) ∧
    (∀ (u : table α) (row col : index) (fb : α),
      u.at_else row col fb ≠ .error .notFound) ∧
    (∀ (u : table α) (row col : index), u.get row col ≠ .error .notFound) ∧
    (∀ (u : table α) (row col : index) (v : α) (e : Err) (s : table α),
      u.set row col v = .err e s → e = .outOfRange) ∧
    (∀ (u : table α) (row col : index) (v : α) (e : Err) (s : table α),
      u.emplace row col v = .err e s → e = .outOfRange) := by
  refine ⟨?_, by simp, contains_ne_notFound, at_else_ne_notFound, get_ne_notFound,
    fun u row col v e s h => (set_err_classify u row col v e s h).1,
    fun u row col v e s h => (emplace_err_classify u row col v e s h).1⟩
  intro row col hr hc hempty
  have hfi := gti_in_rect t hInv.small hr hc
  have h0 : 0 ≤ t.get_table_index (Int.ofNat row) (Int.ofNat col) := by
    rw [hfi]
    exact Int.natCast_nonneg _
  have htoNat : (t.get_table_index (Int.ofNat row) (Int.ofNat col)).toNat =
      row * t.cols + col := by
    rw [hfi]
    rfl
  have hlt : (t.get_table_index (Int.ofNat row) (Int.ofNat col)).toNat <
      t.rows * t.cols := by
    rw [htoNat]
    exact flat_lt t hr hc
  rw [at_in_range hInv h0 hlt, htoNat, hempty]

/-- C4, witness: `at(0,0)` on a fresh 2×2 table fails with NotFound. -/
theorem C4_notFound_witness :
    (table.mk_table 2 2 : table Int).at_ 0 0 = .error .notFound :=
  (C4_notFound (table.mk_table 2 2) (Inv_mk_table 2 2 (by norm_num))).1
    0 0 (by decide) (by decide) (by decide)

/-- C10: erasing an in-bounds cell that is currently empty is not a
checked error: `erase` reads the `-INT_MAX` sentinel from the lookup array
and hands it to `swap_and_erase`, whose raw pointer arithmetic indexes the
dense containers with the sentinel — undefined behaviour (`MRes.ub` in
this embedding); the operation is well-defined (returns a new state)
exactly under the precondition that the target cell is populated. -/
theorem C10_erase_empty {α : Type} (t : table α) (hInv : Inv t) (row col : Nat)
    (hr : row < t.rows) (hc : col < t.cols) :
    (cellVal t (row * t.cols + col) = Option.none →
      t.table_indices[row * t.cols + col]? = some ds.none ∧
      t.erase (Int.ofNat row) (Int.ofNat col) = .ub) ∧
    ((cellVal t (row * t.cols + col)).isSome →
      ∃ t', t.erase (Int.ofNat row) (Int.ofNat col) = .ok t') := by
  have hfi := gti_in_rect t hInv.small hr hc
  have h0 : 0 ≤ t.get_table_index (Int.ofNat row) (Int.ofNat col) := by
    rw [hfi]
    exact Int.natCast_nonneg _
  have htoNat : (t.get_table_index (Int.ofNat row) (Int.ofNat col)).toNat =
      row * t.cols + col := by
    rw [hfi]
    rfl
  have hflat : row * t.cols + col < t.rows * t.cols := flat_lt t hr hc
  constructor
  · intro hempty
    rcases hInv.lookup_shape _ hflat with hn | ⟨j, hj, hs⟩
    · refine ⟨hn, ?_⟩
      apply erase_empty_cell h0
      rw [htoNat]
      exact hn
    · rw [cellVal_of_entry hs] at hempty
      rw [List.getElem?_eq_getElem hj] at hempty
      simp at hempty
  · intro hpop
    obtain ⟨t', heq, _⟩ := erase_ok_of_populated hInv hr hc hpop
    exact ⟨t', heq⟩

/-- C10, witness: on a fresh 2×2 table the cell `(0,0)` is empty, its
lookup entry is the sentinel, and `erase(0,0)` is undefined behaviour. -/
theorem C10_erase_empty_witness :
    (table.mk_table 2 2 : table Int).table_indices[0]? = some ds.none ∧
    (table.mk_table 2 2 : table Int).erase 0 0 = .ub :=
  (C10_erase_empty (table.mk_table 2 2) (Inv_mk_table 2 2 (by norm_num))
    0 0 (by decide) (by decide)).1 (by decide)

theorem at_get_of_cellVal_some {t : table α} (hInv : Inv t) {row col : Nat}
    (hr : row < t.rows) (hc : col < t.cols) {v : α}
    (hcv : cellVal t (row * t.cols + col) = some v) :
    t.at_ (Int.ofNat row) (Int.ofNat col) = .ok v ∧
    t.get (Int.ofNat row) (Int.ofNat col) = .ok (some v) := by
  have hfi := gti_in_rect t hInv.small hr hc
  have h0 : 0 ≤ t.get_table_index (Int.ofNat row) (Int.ofNat col) := by
    rw [hfi]
    exact Int.natCast_nonneg _
  have htoNat : (t.get_table_index (Int.ofNat row) (Int.ofNat col)).toNat =
      row * t.cols + col := by
    rw [hfi]
    rfl
  have hlt : (t.get_table_index (Int.ofNat row) (Int.ofNat col)).toNat <
      t.rows * t.cols := by
    rw [htoNat]
    exact flat_lt t hr hc
  constructor
  · rw [at_in_range hInv h0 hlt, htoNat, hcv]
  · rw [get_in_range hInv h0 hlt, htoNat, hcv]

theorem accessors_congr {t t' : table α} (hI : Inv t) (hI2 : Inv t')
    (hrows : t'.rows = t.rows) (hcols : t'.cols = t.cols) (row col : index)
    (hcv : cellVal t' (t.get_table_index row col).toNat =
      cellVal t (t.get_table_index row col).toNat) :
    t'.contains row col = t.contains row col ∧ t'.at_ row col = t.at_ row col := by
  have hfieq : t'.get_table_index row col = t.get_table_index row col := by
    unfold table.get_table_index
    rw [hcols]
  have hlen : t'.table_indices.length = t.table_indices.length := by
    rw [hI2.len_ti, hI.len_ti, hrows, hcols]
  by_cases hoob : flat_oob t row col
  · have hoob2 : flat_oob t' row col := by
      unfold flat_oob at hoob ⊢
      rw [hfieq, hlen]
      exact hoob
    rw [contains_oob hoob, contains_oob hoob2, at_oob hoob, at_oob hoob2]
    exact ⟨rfl, rfl⟩
  · have hnoob := hoob
    unfold flat_oob at hoob
    rw [not_not] at hoob
    obtain ⟨h0, hltl⟩ := hoob
    have hlt : (t.get_table_index row col).toNat < t.rows * t.cols := by
      rw [← hI.len_ti]
      exact hltl
    have h02 : 0 ≤ t'.get_table_index row col := by
      rw [hfieq]
      exact h0
    have hlt2 : (t'.get_table_index row col).toNat < t'.rows * t'.cols := by
      rw [hfieq, hrows, hcols]
      exact hlt
    constructor
    · rw [contains_in_range hI h0 hlt, contains_in_range hI2 h02 hlt2, hfieq, hcv]
    · rw [at_in_range hI h0 hlt, at_in_range hI2 h02 hlt2, hfieq, hcv]

theorem contains_false_of_cellVal_none {t : table α} (hInv : Inv t) {row col : Nat}
    (hr : row < t.rows) (hc : col < t.cols)
    (hcv : cellVal t (row * t.cols + col) = Option.none) :
    t.contains (Int.ofNat row) (Int.ofNat col) = Except.ok false := by
  have hfi := gti_in_rect t hInv.small hr hc
  have h0 : 0 ≤ t.get_table_index (Int.ofNat row) (Int.ofNat col) := by
    rw [hfi]
    exact Int.natCast_nonneg _
  have htoNat : (t.get_table_index (Int.ofNat row) (Int.ofNat col)).toNat =
      row * t.cols + col := by
    rw [hfi]
    rfl
  have hlt : (t.get_table_index (Int.ofNat row) (Int.ofNat col)).toNat <
      t.rows * t.cols := by
    rw [htoNat]
    exact flat_lt t hr hc
  rw [contains_in_range hInv h0 hlt, htoNat, hcv]
  rfl

/-- C5: on an in-bounds cell, if the cell is already populated then
`set(row, col, v)` overwrites the existing dense-store slot in place (the
dense store keeps its length, so `count()` is unchanged) and a subsequent
`at`/`get` of the cell yields `v`; if the cell is empty, `set` appends `v`
to the dense store, appends the flattened cell-id to the back-index,
records the new dense position in the lookup array, `count()` grows by
exactly one, and a subsequent `at`/`get` yields `v`. -/
theorem C5_set_semantics {α : Type} (t : table α) (hInv : Inv t) (row col : Nat)
    (hr : row < t.rows) (hc : col < t.cols) (v : α) :
    ((cellVal t (row * t.cols + col)).isSome →
      ∃ j : Nat, j < t.cells.length ∧
        t.table_indices[row * t.cols + col]? = some ((j : Int)) ∧
        t.set (Int.ofNat row) (Int.ofNat col) v =
          .ok { t with cells := t.cells.set j v } ∧
        ({ t with cells := t.cells.set j v } : table α).count = t.count ∧
        ({ t with cells := t.cells.set j v } : table α).at_
          (Int.ofNat row) (Int.ofNat col) = .ok v ∧
        ({ t with cells := t.cells.set j v } : table α).get
          (Int.ofNat row) (Int.ofNat col) = .ok (some v)) ∧
    (cellVal t (row * t.cols + col) = Option.none →
      t.set (Int.ofNat row) (Int.ofNat col) v = .ok
        { t with
          cells := t.cells ++ [v]
          cells_indices := t.cells_indices ++ [((row * t.cols + col : Nat) : Int)]
          table_indices := t.table_indices.set (row * t.cols + col)
            (Int.ofNat t.cells.length) } ∧
      ({ t with
          cells := t.cells ++ [v]
          cells_indices := t.cells_indices ++ [((row * t.cols + col : Nat) : Int)]
          table_indices := t.table_indices.set (row * t.cols + col)
            (Int.ofNat t.cells.length) } : table α).count = t.count + 1 ∧
      ({ t with
          cells := t.cells ++ [v]
          cells_indices := t.cells_indices ++ [((row * t.cols + col : Nat) : Int)]
          table_indices := t.table_indices.set (row * t.cols + col)
            (Int.ofNat t.cells.length) } : table α).at_
          (Int.ofNat row) (Int.ofNat col) = .ok v ∧
      ({ t with
          cells := t.cells ++ [v]
          cells_indices := t.cells_indices ++ [((row * t.cols + col : Nat) : Int)]
          table_indices := t.table_indices.set (row * t.cols + col)
            (Int.ofNat t.cells.length) } : table α).get
          (Int.ofNat row) (Int.ofNat col) = .ok (some v)) := by
  have hflat : row * t.cols + col < t.rows * t.cols := flat_lt t hr hc
  have hfi := gti_in_rect t hInv.small hr hc
  have h0 : 0 ≤ t.get_table_index (Int.ofNat row) (Int.ofNat col) := by
    rw [hfi]
    exact Int.natCast_nonneg _
  have htoNat : (t.get_table_index (Int.ofNat row) (Int.ofNat col)).toNat =
      row * t.cols + col := by
    rw [hfi]
    rfl
  have hltN : (t.get_table_index (Int.ofNat row) (Int.ofNat col)).toNat <
      t.rows * t.cols := by
    rw [htoNat]
    exact hflat
  constructor
  · intro hpop
    obtain ⟨j, hj, hs⟩ := (cellVal_isSome_iff hInv hflat).mp hpop
    have hsT : t.table_indices[(t.get_table_index (Int.ofNat row)
        (Int.ofNat col)).toNat]? = some ((j : Int)) := by
      rw [htoNat]
      exact hs
    have hI2 := Inv_modify hInv j v
    have hupd := cellVal_modify hInv hflat hs hj v
    have hcv2 : cellVal ({ t with cells := t.cells.set j v } : table α)
        (row * t.cols + col) = some v := by
      rw [hupd, if_pos rfl]
    obtain ⟨hat, hget⟩ := at_get_of_cellVal_some hI2 hr hc hcv2
    exact ⟨j, hj, hs, set_populated_cell hInv v h0 hsT hj, by simp [table.count],
      hat, hget⟩
  · intro hempty
    have hn : t.table_indices[row * t.cols + col]? = some ds.none := by
      rcases hInv.lookup_shape _ hflat with hn | ⟨j, hj, hs⟩
      · exact hn
      · rw [cellVal_of_entry hs, List.getElem?_eq_getElem hj] at hempty
        simp at hempty
    have hnT : t.table_indices[(t.get_table_index (Int.ofNat row)
        (Int.ofNat col)).toNat]? = some ds.none := by
      rw [htoNat]
      exact hn
    have heq := set_empty_cell hInv v h0 hltN hnT
    rw [htoNat] at heq
    have hI2 := Inv_append hInv hflat hn v
    have hupd := cellVal_append hInv hflat v
    have hcv2 : cellVal ({ t with
        cells := t.cells ++ [v]
        cells_indices := t.cells_indices ++ [((row * t.cols + col : Nat) : Int)]
        table_indices := t.table_indices.set (row * t.cols + col)
          (Int.ofNat t.cells.length) } : table α) (row * t.cols + col) = some v := by
      rw [hupd, if_pos rfl]
    obtain ⟨hat, hget⟩ := at_get_of_cellVal_some hI2 hr hc hcv2
    exact ⟨heq, by simp [table.count], hat, hget⟩

/-- C5, witness: `set(0,0,7)` on a fresh 2×2 table appends the value, the
cell-id and the lookup entry. -/
theorem C5_set_semantics_witness :
    (table.mk_table 2 2 : table Int).set 0 0 7 = MRes.ok
      { rows := 2, cols := 2, cells := ([7] : List Int), cells_indices := [0],
        table_indices := [0, ds.none, ds.none, ds.none] } :=
  ((C5_set_semantics (table.mk_table 2 2) (Inv_mk_table 2 2 (by norm_num)) 0 0
    (by decide) (by decide) 7).2 (by decide)).1


/-- C6: erasing an in-bounds, populated cell removes it by swap-and-pop on
the dense store and, in lockstep, on the back-index; the cell's lookup
entry becomes EMPTY and, when the erased slot was not the last one, the
moved element's lookup entry is redirected to the vacated slot; afterwards
`contains` is false for the cell, `count()` has decreased by one, and every
other in-bounds cell reads as before. -/
theorem C6_erase_semantics {α : Type} (t : table α) (hInv : Inv t) (row col : Nat)
    (hr : row < t.rows) (hc : col < t.cols)
    (hpop : (cellVal t (row * t.cols + col)).isSome) :
    ∃ j : Nat, j < t.cells.length ∧
      t.table_indices[row * t.cols + col]? = some ((j : Int)) ∧
      ∃ t2 : table α,
        t.erase (Int.ofNat row) (Int.ofNat col) = .ok t2 ∧
        t2.rows = t.rows ∧ t2.cols = t.cols ∧
        t2.cells = swap_and_erase_vec t.cells j ∧
        t2.cells_indices = swap_and_erase_vec t.cells_indices j ∧
        ((j + 1 = t.cells.length ∧
            t2.table_indices = t.table_indices.set (row * t.cols + col) ds.none) ∨
          (j + 1 < t.cells.length ∧
            ∃ cl : Nat, t.cells_indices[t.cells.length - 1]? = some ((cl : Int)) ∧
              t2.table_indices =
                (t.table_indices.set (row * t.cols + col) ds.none).set cl ((j : Int)))) ∧
        t2.contains (Int.ofNat row) (Int.ofNat col) = Except.ok false ∧
        t2.count + 1 = t.count ∧
        (∀ row2 col2 : Nat, row2 < t.rows → col2 < t.cols →
          ¬ (row2 = row ∧ col2 = col) →
          t2.at_ (Int.ofNat row2) (Int.ofNat col2) =
            t.at_ (Int.ofNat row2) (Int.ofNat col2)) := by
  have hflat : row * t.cols + col < t.rows * t.cols := flat_lt t hr hc
  have hfi := gti_in_rect t hInv.small hr hc
  have h0 : 0 ≤ t.get_table_index (Int.ofNat row) (Int.ofNat col) := by
    rw [hfi]
    exact Int.natCast_nonneg _
  have htoNat : (t.get_table_index (Int.ofNat row) (Int.ofNat col)).toNat =
      row * t.cols + col := by
    rw [hfi]
    rfl
  obtain ⟨j, hj, hs⟩ := (cellVal_isSome_iff hInv hflat).mp hpop
  have hs2 : t.table_indices[(t.get_table_index (Int.ofNat row)
      (Int.ofNat col)).toNat]? = some ((j : Int)) := by
    rw [htoNat]
    exact hs
  have hcne : t.cells ≠ [] := List.length_pos.mp (by omega)
  refine ⟨j, hj, hs, ?_⟩
  by_cases hcase : j + 1 = t.cells.length
  · have heq := erase_last_slot hInv h0 hs2 hcase
    rw [htoNat] at heq
    have hI2 := Inv_erase_last hInv hflat hs hcase
    have hupd := cellVal_erase_last hInv hflat hs hcase
    refine ⟨_, heq, rfl, rfl, rfl, rfl, Or.inl ⟨hcase, rfl⟩,
      contains_false_of_cellVal_none hI2 hr hc ((hupd _).trans (if_pos rfl)), ?_, ?_⟩
    · show (swap_and_erase_vec t.cells j).length + 1 = t.cells.length
      rw [swap_and_erase_vec_length _ _ hcne]
      omega
    · intro row2 col2 hr2 hc2 hne
      have hne2 : row2 * t.cols + col2 ≠ row * t.cols + col := fun he =>
        hne (encode_inj hc2 hc he)
      have htoNat2 : (t.get_table_index (Int.ofNat row2) (Int.ofNat col2)).toNat =
          row2 * t.cols + col2 := by
        rw [gti_in_rect t hInv.small hr2 hc2]
        rfl
      exact (accessors_congr hInv hI2 rfl rfl (Int.ofNat row2) (Int.ofNat col2)
        (by rw [htoNat2, hupd, if_neg hne2])).2
  · have hjlt : j + 1 < t.cells.length := by omega
    have hlen2 : t.cells_indices.length = t.cells.length := hInv.len_eq.symm
    obtain ⟨cl, hcl_e, hcl_lt⟩ := hInv.back_lt (t.cells.length - 1) (by omega)
    have heq := erase_swap_slot hInv h0 hs2 hjlt hcl_e hcl_lt
    rw [htoNat] at heq
    have hI2 := Inv_erase_swap hInv hflat hs hjlt hcl_e hcl_lt
    have hupd := cellVal_erase_swap hInv hflat hs hjlt hcl_e hcl_lt
    refine ⟨_, heq, rfl, rfl, rfl, rfl, Or.inr ⟨hjlt, cl, hcl_e, rfl⟩,
      contains_false_of_cellVal_none hI2 hr hc ((hupd _).trans (if_pos rfl)), ?_, ?_⟩
    · show (swap_and_erase_vec t.cells j).length + 1 = t.cells.length
      rw [swap_and_erase_vec_length _ _ hcne]
      omega
    · intro row2 col2 hr2 hc2 hne
      have hne2 : row2 * t.cols + col2 ≠ row * t.cols + col := fun he =>
        hne (encode_inj hc2 hc he)
      have htoNat2 : (t.get_table_index (Int.ofNat row2) (Int.ofNat col2)).toNat =
          row2 * t.cols + col2 := by
        rw [gti_in_rect t hInv.small hr2 hc2]
        rfl
      exact (accessors_congr hInv hI2 rfl rfl (Int.ofNat row2) (Int.ofNat col2)
        (by rw [htoNat2, hupd, if_neg hne2])).2

/-- C6, witness: the claim instantiated on the one-element table `wtab1`
(erasing cell (0, 0), the last dense slot). -/
theorem C6_erase_semantics_witness :
    ∃ j : Nat, j < wtab1.cells.length ∧
      wtab1.table_indices[0 * wtab1.cols + 0]? = some ((j : Int)) ∧
      ∃ t2 : table Int,
        wtab1.erase (Int.ofNat 0) (Int.ofNat 0) = .ok t2 ∧
        t2.rows = wtab1.rows ∧ t2.cols = wtab1.cols ∧
        t2.cells = swap_and_erase_vec wtab1.cells j ∧
        t2.cells_indices = swap_and_erase_vec wtab1.cells_indices j ∧
        ((j + 1 = wtab1.cells.length ∧
            t2.table_indices = wtab1.table_indices.set (0 * wtab1.cols + 0) ds.none) ∨
          (j + 1 < wtab1.cells.length ∧
            ∃ cl : Nat, wtab1.cells_indices[wtab1.cells.length - 1]? = some ((cl : Int)) ∧
              t2.table_indices =
                (wtab1.table_indices.set (0 * wtab1.cols + 0) ds.none).set cl ((j : Int)))) ∧
        t2.contains (Int.ofNat 0) (Int.ofNat 0) = Except.ok false ∧
        t2.count + 1 = wtab1.count ∧
        (∀ row2 col2 : Nat, row2 < wtab1.rows → col2 < wtab1.cols →
          ¬ (row2 = 0 ∧ col2 = 0) →
          t2.at_ (Int.ofNat row2) (Int.ofNat col2) =
            wtab1.at_ (Int.ofNat row2) (Int.ofNat col2)) :=
  C6_erase_semantics wtab1
    (inv_of_set_ok (Inv_mk_table 2 2 (by norm_num))
      (show (table.mk_table 2 2 : table Int).set 0 0 10 = MRes.ok wtab1 by decide))
    0 0 (by decide) (by decide) (by decide)

/-- C9: in this embedding the accessors (`contains`, `at`, `at_else`,
`get`) are pure and cannot mutate; for the mutators, whenever `set`,
`emplace`, `erase` or `set_size` signals an error the state carried at the
moment of the throw is the unchanged input table, and under the invariant
`set_size` never signals an error at all — its truncation is the designed
`ok` outcome. -/
theorem C9_no_partial_failure {α : Type} (t : table α) (hInv : Inv t) :
    (∀ row col : index, ∀ v : α, ∀ e s, t.set row col v = .err e s → s = t) ∧
    (∀ row col : index, ∀ v : α, ∀ e s, t.emplace row col v = .err e s → s = t) ∧
    (∀ row col : index, ∀ e s, t.erase row col = .err e s → s = t) ∧
    (∀ r c : Nat, ∀ e s, t.set_size r c = .err e s → s = t) ∧
    (∀ r c : Nat, r * c < 2147483648 → ∀ e s, t.set_size r c ≠ .err e s) := by
  refine ⟨?_, ?_, ?_, ?_, ?_⟩
  · intro row col v e s h
    exact (set_err_classify t row col v e s h).2
  · intro row col v e s h
    exact (emplace_err_classify t row col v e s h).2
  · intro row col e s h
    exact (erase_err_classify hInv h).2
  · intro r c e s h
    exact set_size_err t r c e s h
  · intro r c hrc e s h
    obtain ⟨t2, hok, _⟩ := set_size_spec hInv hrc
    rw [hok] at h
    simp at h

/-- C9, witness: on a fresh 2×2 table, the erring `set(0, 9, 5)` carries
the unchanged table, and `set_size(2, 2)` does not error. -/
theorem C9_no_partial_failure_witness :
    (table.mk_table 2 2 : table Int) = table.mk_table 2 2 ∧
    (table.mk_table 2 2 : table Int).set_size 2 2 ≠
      MRes.err Err.outOfRange (table.mk_table 2 2) :=
  ⟨(C9_no_partial_failure (table.mk_table 2 2) (Inv_mk_table 2 2 (by norm_num))).1
      0 9 5 Err.outOfRange (table.mk_table 2 2) (by decide),
    (C9_no_partial_failure (table.mk_table 2 2) (Inv_mk_table 2 2 (by norm_num))).2.2.2.2
      2 2 (by norm_num) Err.outOfRange (table.mk_table 2 2)⟩

/-- C7: `set_size(r, c)` succeeds, never increases `count()`, sets the new
dimensions, and afterwards a new-rectangle cell holds the old cell's value
exactly when its coordinates lay in the old rectangle too (and is empty
otherwise); every stored element whose original coordinates — recovered
from its stored cell-id by division and modulo by the old column count —
satisfy `row < r` and `col < c` survives at its original position with its
original value, and every flat index outside the new table is empty. -/
theorem C7_set_size_truncation {α : Type} (t : table α) (hInv : Inv t) (r c : Nat)
    (hrc : r * c < 2147483648) :
    ∃ t2 : table α, t.set_size r c = .ok t2 ∧
      t2.rows = r ∧ t2.cols = c ∧
      t2.count ≤ t.count ∧
      (∀ row col : Nat, row < r → col < c →
        cellVal t2 (row * c + col) =
          if row < t.rows ∧ col < t.cols then cellVal t (row * t.cols + col)
          else Option.none) ∧
      (∀ d : Nat, r * c ≤ d → cellVal t2 d = Option.none) ∧
      (∀ j cid : Nat, t.cells_indices[j]? = some ((cid : Int)) →
        cid / t.cols < r → cid % t.cols < c →
        cellVal t2 (cid / t.cols * c + cid % t.cols) = t.cells[j]?) := by
  obtain ⟨t2, hok, hI2, hrt, hct, hcnt, hchar⟩ := set_size_spec hInv hrc
  refine ⟨t2, hok, hrt, hct, hcnt, hchar, ?_, ?_⟩
  · intro d hd
    apply cellVal_of_len_le
    rw [hI2.len_ti, hrt, hct]
    exact hd
  · intro j cid hentry hrowlt hcollt
    have hjlen : j < t.cells_indices.length :=
      getElem?_isSome_iff.mp (by rw [hentry]; rfl)
    have hjc : j < t.cells.length := by
      rw [hInv.len_eq]
      exact hjlen
    obtain ⟨c2, hc2e, hc2lt⟩ := hInv.back_lt j hjlen
    have hc2cid : c2 = cid := by
      rw [hentry] at hc2e
      simp only [Option.some.injEq, Int.natCast_inj] at hc2e
      exact hc2e.symm
    subst hc2cid
    have hcolpos : 0 < t.cols := by
      rcases Nat.eq_zero_or_pos t.cols with h0 | h
      · rw [h0, Nat.mul_zero] at hc2lt
        omega
      · exact h
    have horow : c2 / t.cols < t.rows := by
      rw [Nat.div_lt_iff_lt_mul hcolpos]
      exact hc2lt
    have hocol : c2 % t.cols < t.cols := Nat.mod_lt _ hcolpos
    have henc : c2 / t.cols * t.cols + c2 % t.cols = c2 := by
      rw [Nat.mul_comm]
      exact Nat.div_add_mod c2 t.cols
    have hlink : t.table_indices[c2]? = some ((j : Int)) :=
      (hInv.link c2 j hc2lt hjc).mpr hentry
    rw [hchar _ _ hrowlt hcollt, if_pos ⟨horow, hocol⟩, henc]
    exact cellVal_of_entry hlink

/-- C7, witness: the claim instantiated on the one-element table `wtab1`
shrunk to a 1×1 table, where the element at (0, 0) survives. -/
theorem C7_set_size_truncation_witness :
    ∃ t2 : table Int, wtab1.set_size 1 1 = .ok t2 ∧
      t2.rows = 1 ∧ t2.cols = 1 ∧
      t2.count ≤ wtab1.count ∧
      (∀ row col : Nat, row < 1 → col < 1 →
        cellVal t2 (row * 1 + col) =
          if row < wtab1.rows ∧ col < wtab1.cols
          then cellVal wtab1 (row * wtab1.cols + col)
          else Option.none) ∧
      (∀ d : Nat, 1 * 1 ≤ d → cellVal t2 d = Option.none) ∧
      (∀ j cid : Nat, wtab1.cells_indices[j]? = some ((cid : Int)) →
        cid / wtab1.cols < 1 → cid % wtab1.cols < 1 →
        cellVal t2 (cid / wtab1.cols * 1 + cid % wtab1.cols) = wtab1.cells[j]?) :=
  C7_set_size_truncation wtab1
    (inv_of_set_ok (Inv_mk_table 2 2 (by norm_num))
      (show (table.mk_table 2 2 : table Int).set 0 0 10 = MRes.ok wtab1 by decide))
    1 1 (by norm_num)

/-- C8: resizing to the current dimensions succeeds and is a no-op on
contents: `contains` and `at` agree with the original table at every
coordinate pair (in range or not), and `count()` is unchanged. -/
theorem C8_set_size_noop {α : Type} (t : table α) (hInv : Inv t) :
    ∃ t2 : table α, t.set_size t.rows t.cols = .ok t2 ∧
      (∀ row col : index, t2.contains row col = t.contains row col) ∧
      (∀ row col : index, t2.at_ row col = t.at_ row col) ∧
      t2.count = t.count := by
  obtain ⟨t2, hok, hI2, hrt, hct, hcnt, hchar⟩ := set_size_spec hInv hInv.small
  have hcv : ∀ d : Nat, cellVal t2 d = cellVal t d := by
    intro d
    by_cases hd : d < t.rows * t.cols
    · have hcolpos : 0 < t.cols := by
        rcases Nat.eq_zero_or_pos t.cols with h0 | h
        · rw [h0, Nat.mul_zero] at hd
          omega
        · exact h
      have horow : d / t.cols < t.rows := by
        rw [Nat.div_lt_iff_lt_mul hcolpos]
        exact hd
      have hocol : d % t.cols < t.cols := Nat.mod_lt _ hcolpos
      have henc : d / t.cols * t.cols + d % t.cols = d := by
        rw [Nat.mul_comm]
        exact Nat.div_add_mod d t.cols
      have h := hchar (d / t.cols) (d % t.cols) horow hocol
      rw [if_pos ⟨horow, hocol⟩, henc] at h
      exact h
    · have hge : t.table_indices.length ≤ d := by
        rw [hInv.len_ti]
        omega
      have hge2 : t2.table_indices.length ≤ d := by
        rw [hI2.len_ti, hrt, hct]
        omega
      rw [cellVal_of_len_le hge2, cellVal_of_len_le hge]
  refine ⟨t2, hok,
    fun row col => (accessors_congr hInv hI2 hrt hct row col (hcv _)).1,
    fun row col => (accessors_congr hInv hI2 hrt hct row col (hcv _)).2, ?_⟩
  have h1 := card_populated hI2
  have h2 := card_populated hInv
  have hfe : ((Finset.range (t2.rows * t2.cols)).filter fun d => (cellVal t2 d).isSome)
      = ((Finset.range (t.rows * t.cols)).filter fun d => (cellVal t d).isSome) := by
    rw [hrt, hct]
    apply Finset.filter_congr
    intro x _
    rw [hcv x]
  show t2.cells.length = t.cells.length
  rw [← h1, ← h2, hfe]

/-- C8, witness: the claim instantiated on the one-element 2×2 table
`wtab1` resized to its own dimensions. -/
theorem C8_set_size_noop_witness :
    ∃ t2 : table Int, wtab1.set_size wtab1.rows wtab1.cols = .ok t2 ∧
      (∀ row col : index, t2.contains row col = wtab1.contains row col) ∧
      (∀ row col : index, t2.at_ row col = wtab1.at_ row col) ∧
      t2.count = wtab1.count :=
  C8_set_size_noop wtab1
    (inv_of_set_ok (Inv_mk_table 2 2 (by norm_num))
      (show (table.mk_table 2 2 : table Int).set 0 0 10 = MRes.ok wtab1 by decide))

end ds
